import Mathlib

/-!
Verification of the JSON-normalization core of the Nova-Act shipment
pipeline (src/nova_act_automation/json_parser.py).

The Python module is shallowly embedded: JSON values become an inductive
type, Python dicts become ordered association lists with Python insertion
semantics (first position kept, last value kept), and every function of
the module becomes an executable Lean definition with the same name.

Modelling notes, stated once here:
- Python str.lower and str.strip act on full Unicode; the documents and
  aliases treated here are ASCII, so both are modelled on the ASCII range
  (str.strip over the six ASCII whitespace characters).
- Python numbers inside JSON are carried as their str() rendering, which
  is the only way the module ever consumes them.
- datetime.now() is an effect; the validator takes the current moment as
  an explicit argument.
-/

namespace NovaAct

/-- ASCII whitespace recognised by Python str.strip. -/
def pyIsSpaceChar (c : Char) : Bool :=
  c = ' ' || c = '\t' || c = '\n' || c = '\r' || c = '\x0b' || c = '\x0c'

/-- Python str.strip on a character list: drop whitespace at both ends. -/
def pyStripChars (cs : List Char) : List Char :=
  ((cs.dropWhile pyIsSpaceChar).reverse.dropWhile pyIsSpaceChar).reverse

/-- Python str.strip. -/
def pyStripStr (s : String) : String :=
  String.mk (pyStripChars s.data)

/-- Python str.lower on one ASCII character. -/
def pyLowerChar (c : Char) : Char :=
  if 'A' ≤ c ∧ c ≤ 'Z' then Char.ofNat (c.toNat + 32) else c

/-- Python str.lower. -/
def pyLowerStr (s : String) : String :=
  String.mk (s.data.map pyLowerChar)

/-- Whether the second list occurs as a prefix of the first. -/
def listStartsWith : List Char → List Char → Bool
  | _, [] => true
  | [], _ :: _ => false
  | c :: cs, d :: ds => c = d && listStartsWith cs ds

/-- Whether the second list occurs contiguously inside the first. -/
def listContainsSub : List Char → List Char → Bool
  | [], needle => needle.isEmpty
  | c :: cs, needle => listStartsWith (c :: cs) needle || listContainsSub cs needle

/-- Python substring test: needle in haystack. -/
def pyInStr (needle haystack : String) : Bool :=
  listContainsSub haystack.data needle.data

/-- Ordered association-list lookup, the model of Python dict indexing. -/
def alistLookup {α : Type} : List (String × α) → String → Option α
  | [], _ => none
  | kv :: rest, k => if kv.1 = k then some kv.2 else alistLookup rest k

/-- One step of Python dict construction: overwrite the value in place if
the key is present, append otherwise. -/
def pyInsert {α : Type} : List (String × α) → String → α → List (String × α)
  | [], k, v => [(k, v)]
  | kv :: rest, k, v =>
      if kv.1 = k then (kv.1, v) :: rest else kv :: pyInsert rest k v

/-- Python dict(items): keys keep their first position, later duplicates
overwrite the stored value. -/
def pyDict {α : Type} (items : List (String × α)) : List (String × α) :=
  items.foldl (fun acc kv => pyInsert acc kv.1 kv.2) []

/-- JSON values as parsed by json.load: the tagged variant of the spec
data model. Numbers carry their Python str() rendering. -/
inductive JsonValue where
  | null : JsonValue
  | bool : Bool → JsonValue
  | num : String → JsonValue
  | str : String → JsonValue
  | arr : List JsonValue → JsonValue
  | obj : List (String × JsonValue) → JsonValue

/-- Whether a JsonValue is a dict, the isinstance(value, dict) test. -/
def JsonValue.isObj : JsonValue → Bool
  | .obj _ => true
  | _ => false

/-- Whether a JsonValue is one of the four scalar shapes of the spec
(Null, Boolean, Number, String). -/
def JsonValue.isScalar : JsonValue → Bool
  | .null => true
  | .bool _ => true
  | .num _ => true
  | .str _ => true
  | _ => false

mutual

/-- Python repr() of a JSON-derived value, used when str() renders a
list. String escaping inside repr is not modelled (no claim exercises
it); quotes are attached verbatim. -/
def pyRepr : JsonValue → List Char
  | .null => "None".data
  | .bool true => "True".data
  | .bool false => "False".data
  | .num r => r.data
  | .str s => '\'' :: s.data ++ ['\'']
  | .arr xs => '[' :: pyReprItems xs ++ [']']
  | .obj entries => '\x7b' :: pyReprEntries entries ++ ['\x7d']

/-- Comma-separated repr of list elements. -/
def pyReprItems : List JsonValue → List Char
  | [] => []
  | [x] => pyRepr x
  | x :: y :: rest => pyRepr x ++ ", ".data ++ pyReprItems (y :: rest)

/-- Comma-separated repr of dict entries. -/
def pyReprEntries : List (String × JsonValue) → List Char
  | [] => []
  | [kv] => '\'' :: kv.1.data ++ '\'' :: ": ".data ++ pyRepr kv.2
  | kv :: kv2 :: rest =>
      '\'' :: kv.1.data ++ '\'' :: ": ".data ++ pyRepr kv.2 ++ ", ".data ++
        pyReprEntries (kv2 :: rest)

end

/-- Python str() of a JSON-derived value. Differs from repr only on
strings, which are rendered without quotes. -/
def pyStr : JsonValue → String
  | .null => "None"
  | .bool true => "True"
  | .bool false => "False"
  | .num r => r
  | .str s => s
  | v => String.mk (pyRepr v)

mutual

/-- Body of the flattening loop of _flatten_json: walk the entries of a
dict under an accumulated parent key. A dict value recurses; a non-empty
list whose first element is a dict recurses into that first element; any
other value is stored at its dotted path. The recursive calls pass
through _flatten_json, so each nested level is deduplicated by dict()
exactly as in the source. -/
def flattenEntries : List (String × JsonValue) → String → List (String × JsonValue)
  | [], _ => []
  | (key, value) :: rest, parentKey =>
      let newKey := if parentKey = "" then key else parentKey ++ "." ++ key
      (match value with
       | .obj es => _flatten_json (.obj es) newKey
       | .arr (first :: tail) =>
           if first.isObj then _flatten_json first newKey
           else [(newKey, .arr (first :: tail))]
       | v => [(newKey, v)]) ++ flattenEntries rest parentKey

/-- JsonParser._flatten_json: flatten a nested JSON structure to a dict
from dotted-path keys to stored values. A non-dict input contributes no
items and flattens to the empty dict. -/
def _flatten_json (data : JsonValue) (parentKey : String) : List (String × JsonValue) :=
  pyDict (match data with
          | .obj entries => flattenEntries entries parentKey
          | _ => [])

end

/-- JsonParser._get_field_mappings: the immutable alias table, canonical
field name paired with its ordered alias candidates. -/
def field_mappings : List (String × List String) :=
  [("shipper_name",
    ["shipper_name", "shipper", "sender_name", "sender", "from_name", "from",
     "origin_name", "origin_company", "shipping_company", "company_name"]),
   ("shipper_address",
    ["shipper_address", "shipper_addr", "sender_address", "sender_addr",
     "from_address", "from_addr", "origin_address", "origin_addr", "pickup_address"]),
   ("recipient_name",
    ["recipient_name", "recipient", "receiver_name", "receiver", "to_name", "to",
     "destination_name", "dest_name", "customer_name", "consignee_name", "consignee"]),
   ("recipient_address",
    ["recipient_address", "recipient_addr", "receiver_address", "receiver_addr",
     "to_address", "to_addr", "destination_address", "dest_address", "delivery_address"]),
   ("package_weight",
    ["package_weight", "weight", "pkg_weight", "total_weight", "gross_weight",
     "shipment_weight", "parcel_weight", "item_weight"]),
   ("package_dimensions",
    ["package_dimensions", "dimensions", "pkg_dimensions", "size", "measurements",
     "length_width_height", "lwh", "box_size"]),
   ("tracking_number",
    ["tracking_number", "tracking_no", "tracking_id", "track_number", "reference_number",
     "reference_no", "shipment_id", "order_number", "order_id", "awb_number"]),
   ("shipping_date",
    ["shipping_date", "ship_date", "pickup_date", "dispatch_date", "send_date",
     "departure_date", "collection_date", "scheduled_date"]),
   ("special_instructions",
    ["special_instructions", "instructions", "notes", "comments", "remarks",
     "delivery_instructions", "handling_instructions", "special_notes", "description"])]

/-- Canonical field names in table order. -/
def canonicalFields : List String := field_mappings.map Prod.fst

/-- Substring condition of the partial-match pass: alias inside document
key or document key inside alias, both lowercased. -/
def partialMatches (key dataKey : String) : Bool :=
  pyInStr (pyLowerStr key) (pyLowerStr dataKey) ||
    pyInStr (pyLowerStr dataKey) (pyLowerStr key)

/-- JsonParser._find_value_by_keys: three sequential passes. Exact key
lookups first; then lookups in a dict rebuilt with lowercased keys; then
the bidirectional substring scan over the document entries. A key whose
stored value is JSON null still hits (the source returns data of key
unconditionally once the key is present). -/
def _find_value_by_keys (data : List (String × JsonValue)) (possible_keys : List String) :
    Option JsonValue :=
  match possible_keys.findSome? (fun key => alistLookup data key) with
  | some v => some v
  | none =>
    let data_lower := pyDict (data.map (fun kv => (pyLowerStr kv.1, kv.2)))
    match possible_keys.findSome? (fun key => alistLookup data_lower (pyLowerStr key)) with
    | some v => some v
    | none =>
      possible_keys.findSome? (fun key =>
        (data.find? (fun kv => partialMatches key kv.1)).map (fun kv => kv.2))

/-- Longest all-digit prefix of a character list, and the remainder. -/
def spanDigits (cs : List Char) : List Char × List Char :=
  (cs.takeWhile Char.isDigit, cs.dropWhile Char.isDigit)

/-- One attempted match of the weight regex (one or more digits, an
optional dot, then any digits) at the head of the list; fails when the
head is not a digit. Both digit runs are greedy, which is exact here
because nothing after them in the pattern can force backtracking. -/
def matchNumToken (cs : List Char) : Option (List Char) :=
  match spanDigits cs with
  | ([], _) => none
  | (ds, rest) =>
      match rest with
      | '.' :: rest2 => some (ds ++ '.' :: (spanDigits rest2).1)
      | _ => some ds

/-- re.search for the weight regex: try each start position left to
right and return the first (leftmost) match. -/
def searchNumToken : List Char → Option (List Char)
  | [] => none
  | c :: cs =>
      match matchNumToken (c :: cs) with
      | some t => some t
      | none => searchNumToken cs

/-- Broken-down time as accumulated by strptime, with the CPython
defaults (year 1900, month and day 1, zero time of day). The fractional
second of a %f directive never influences the emitted date and is not
stored. -/
structure Tm where
  y : Nat := 1900
  mo : Nat := 1
  d : Nat := 1
  hh : Nat := 0
  mi : Nat := 0
  ss : Nat := 0
deriving DecidableEq

/-- Directives occurring in the format strings of _normalize_date. A
literal character and a run of whitespace are directives too: CPython
rewrites literal whitespace of the format to one-or-more-whitespace, and
compiles literals case-insensitively. -/
inductive Dir where
  | lit : Char → Dir
  | ws : Dir
  | dY : Dir
  | dm : Dir
  | dd : Dir
  | dH : Dir
  | dM : Dir
  | dS : Dir
  | df : Dir

/-- Numeric value of a digit character. -/
def digVal (c : Char) : Nat := c.toNat - 48

/-- Candidate matches of one directive at the head of the input, as
pairs of captured value and remaining input, in the priority order of
the CPython regular expression for that directive. Two-digit
alternatives precede the one-digit alternative exactly as in the
TimeRE table; %Y is four digits with no alternative; %f and whitespace
are greedy with shorter candidates offered for backtracking. -/
def dirAlts : Dir → List Char → List (Nat × List Char)
  | .lit c, input =>
      match input with
      | c2 :: rest => if pyLowerChar c2 = pyLowerChar c then [(0, rest)] else []
      | [] => []
  | .ws, input =>
      let n := (input.takeWhile pyIsSpaceChar).length
      (List.range n).map (fun k => (0, input.drop (n - k)))
  | .dY, input =>
      match input with
      | a :: b :: c :: d :: rest =>
          if a.isDigit && b.isDigit && c.isDigit && d.isDigit then
            [(digVal a * 1000 + digVal b * 100 + digVal c * 10 + digVal d, rest)]
          else []
      | _ => []
  | .dm, input =>
      (match input with
       | a :: b :: rest =>
           if (a = '1' && '0' ≤ b && b ≤ '2') || (a = '0' && '1' ≤ b && b ≤ '9') then
             [(digVal a * 10 + digVal b, rest)]
           else []
       | _ => []) ++
      (match input with
       | a :: rest => if '1' ≤ a && a ≤ '9' then [(digVal a, rest)] else []
       | [] => [])
  | .dd, input =>
      (match input with
       | a :: b :: rest =>
           if (a = '3' && ('0' ≤ b && b ≤ '1')) || (('1' ≤ a && a ≤ '2') && b.isDigit) ||
               (a = '0' && '1' ≤ b && b ≤ '9') then
             [(digVal a * 10 + digVal b, rest)]
           else []
       | _ => []) ++
      (match input with
       | a :: rest => if '1' ≤ a && a ≤ '9' then [(digVal a, rest)] else []
       | [] => [])
  | .dH, input =>
      (match input with
       | a :: b :: rest =>
           if (a = '2' && '0' ≤ b && b ≤ '3') || (('0' ≤ a && a ≤ '1') && b.isDigit) then
             [(digVal a * 10 + digVal b, rest)]
           else []
       | _ => []) ++
      (match input with
       | a :: rest => if a.isDigit then [(digVal a, rest)] else []
       | [] => [])
  | .dM, input =>
      (match input with
       | a :: b :: rest =>
           if ('0' ≤ a && a ≤ '5') && b.isDigit then [(digVal a * 10 + digVal b, rest)]
           else []
       | _ => []) ++
      (match input with
       | a :: rest => if a.isDigit then [(digVal a, rest)] else []
       | [] => [])
  | .dS, input =>
      (match input with
       | a :: b :: rest =>
           if (a = '6' && ('0' ≤ b && b ≤ '1')) || (('0' ≤ a && a ≤ '5') && b.isDigit) then
             [(digVal a * 10 + digVal b, rest)]
           else []
       | _ => []) ++
      (match input with
       | a :: rest => if a.isDigit then [(digVal a, rest)] else []
       | [] => [])
  | .df, input =>
      let n := min 6 (input.takeWhile Char.isDigit).length
      (List.range n).map (fun k => (0, input.drop (n - k)))

/-- Store a captured directive value into the accumulated time. -/
def applyDir (t : Tm) : Dir → Nat → Tm
  | .dY, n => { t with y := n }
  | .dm, n => { t with mo := n }
  | .dd, n => { t with d := n }
  | .dH, n => { t with hh := n }
  | .dM, n => { t with mi := n }
  | .dS, n => { t with ss := n }
  | _, _ => t

/-- Expand one matcher state by one directive: every candidate of the
directive yields a successor state, kept in the priority order of the
candidates. -/
def stepDir (dir : Dir) (st : Tm × List Char) : List (Tm × List Char) :=
  (dirAlts dir st.2).map (fun p => (applyDir st.1 dir p.1, p.2))

/-- All ways to match a directive list from a set of states, listed in
the exact order a backtracking regex engine would reach them: the
choice at the earliest directive dominates, and within one directive
the candidate order of dirAlts is kept. The head of the result is
therefore the match the engine reports. -/
def matchStates : List Dir → List (Tm × List Char) → List (Tm × List Char)
  | [], sts => sts
  | dir :: rest, sts => matchStates rest (sts.flatMap (stepDir dir))

/-- Days in a month of the proleptic Gregorian calendar used by
datetime. -/
def daysInMonth (y mo : Nat) : Nat :=
  if mo = 2 then
    if y % 4 = 0 && (y % 100 ≠ 0 || y % 400 = 0) then 29 else 28
  else if mo = 4 || mo = 6 || mo = 9 || mo = 11 then 30
  else 31

/-- Validation performed by the datetime constructor after the regex
match: the year must lie between MINYEAR and MAXYEAR, the day must
exist in its month, and the second must be below 60 (the regex alone
admits leap seconds, which datetime rejects). Month, hour and minute
ranges are already enforced by the regex alternatives. -/
def tmValid (t : Tm) : Bool :=
  1 ≤ t.y && t.y ≤ 9999 && t.d ≤ daysInMonth t.y t.mo && t.ss ≤ 59

/-- datetime.strptime restricted to the formats used by the module.
CPython matches the compiled pattern from the start of the string,
raises on unconverted trailing data of that first match, and then lets
the datetime constructor validate the captured fields; every failure is
a ValueError that the caller catches. -/
def strptime (fmt : List Dir) (s : String) : Option Tm :=
  match (matchStates fmt [({}, s.data)]).head? with
  | some st => if st.2 = [] && tmValid st.1 then some st.1 else none
  | none => none

/-- The character of one decimal digit. -/
def digitChar (n : Nat) : Char := Char.ofNat (48 + n % 10)

/-- Unpadded decimal rendering of a year. datetime years are at most
9999, so four digit positions suffice. -/
def yearChars (y : Nat) : List Char :=
  if y < 10 then [digitChar y]
  else if y < 100 then [digitChar (y / 10), digitChar y]
  else if y < 1000 then [digitChar (y / 100), digitChar (y / 10), digitChar y]
  else [digitChar (y / 1000), digitChar (y / 100), digitChar (y / 10), digitChar y]

/-- Two-digit zero-padded rendering used by strftime for month and
day. -/
def twoDigitChars (n : Nat) : List Char :=
  [digitChar (n / 10), digitChar n]

/-- datetime.strftime with the fixed format emitting year, month and
day separated by dashes. The year is rendered without padding as by the
C library on Linux; month and day are zero-padded to two digits. -/
def strftimeYmd (t : Tm) : String :=
  String.mk (yearChars t.y ++ '-' :: twoDigitChars t.mo ++ '-' :: twoDigitChars t.d)

/-- The format list of _normalize_date, in source order. -/
def fmtList : List (List Dir) :=
  [[.dY, .lit '-', .dm, .lit '-', .dd],
   [.dm, .lit '/', .dd, .lit '/', .dY],
   [.dd, .lit '/', .dm, .lit '/', .dY],
   [.dY, .lit '/', .dm, .lit '/', .dd],
   [.dY, .lit '-', .dm, .lit '-', .dd, .ws, .dH, .lit ':', .dM, .lit ':', .dS],
   [.dm, .lit '/', .dd, .lit '/', .dY, .ws, .dH, .lit ':', .dM, .lit ':', .dS],
   [.dY, .lit '-', .dm, .lit '-', .dd, .lit 'T', .dH, .lit ':', .dM, .lit ':', .dS],
   [.dY, .lit '-', .dm, .lit '-', .dd, .lit 'T', .dH, .lit ':', .dM, .lit ':', .dS,
    .lit '.', .df]]

/-- The ISO format used alone by the validator. -/
def fmtIso : List Dir := [.dY, .lit '-', .dm, .lit '-', .dd]

/-- JsonParser._normalize_date: try the formats in order, re-emit the
first successful parse as year-month-day, and return the input
unchanged when every format fails. -/
def _normalize_date (date_str : String) : String :=
  match fmtList.findSome? (fun fmt => strptime fmt date_str) with
  | some t => strftimeYmd t
  | none => date_str

/-- Python str.split on the newline character: separators delimit
fields, so the empty string yields one empty field and a trailing
separator yields a trailing empty field. -/
def splitNl : List Char → List (List Char)
  | [] => [[]]
  | '\n' :: rest => [] :: splitNl rest
  | c :: rest =>
      match splitNl rest with
      | line :: lines => (c :: line) :: lines
      | [] => [[c]]

/-- JsonParser._normalize_address: pipes and semicolons become line
breaks, every line is stripped, empty lines are dropped, and the kept
lines are rejoined with line breaks. -/
def _normalize_address (address_str : String) : String :=
  let replaced :=
    (address_str.data.map (fun c => if c = '|' then '\n' else c)).map
      (fun c => if c = ';' then '\n' else c)
  let lines := (splitNl replaced).map pyStripChars
  String.mk (List.intercalate ['\n'] (lines.filter (fun l => l ≠ [])))

/-- JsonParser._normalize_value: Python None becomes the empty string;
otherwise the value is stringified and stripped and the field-specific
rule is applied. For package_weight the first regex match wins with the
stripped string as fallback. -/
def _normalize_value (field_name : String) (value : JsonValue) : String :=
  match value with
  | .null => ""
  | v =>
    let str_value := pyStripStr (pyStr v)
    if field_name = "package_weight" then
      match searchNumToken str_value.data with
      | some t => String.mk t
      | none => str_value
    else if field_name = "shipping_date" then
      _normalize_date str_value
    else if field_name = "shipper_address" || field_name = "recipient_address" then
      _normalize_address str_value
    else
      str_value

/-- Result of parse_json_data: the canonical entries in table order,
plus the original flattened keys recorded in the metadata. The metadata
also stores a wall-clock timestamp (an effect, not modelled) and
found_mappings, a verbatim copy of the canonical entries. -/
structure ParsedData where
  fields : List (String × String)
  original_keys : List String
deriving DecidableEq

/-- JsonParser.parse_json_data: flatten, resolve each canonical field
through the alias table, and normalize every hit. The Python guard
value is not None skips both a missing field and a field whose resolved
value is JSON null, since _find_value_by_keys hands back Python None in
both cases. -/
def parse_json_data (data : JsonValue) : ParsedData :=
  let flattened_data := _flatten_json data ""
  let fields := field_mappings.foldl
    (fun acc m =>
      match _find_value_by_keys flattened_data m.2 with
      | none => acc
      | some .null => acc
      | some v => acc ++ [(m.1, _normalize_value m.1 v)])
    []
  { fields := fields, original_keys := flattened_data.map Prod.fst }

/-- Value of a successful Python float() call. Finite values are carried
as exact rationals; rounding to binary64 is not modelled, which is
inessential here because the validator only compares against 0 and
1000. -/
inductive PyFloat where
  | finite : ℚ → PyFloat
  | pinf : PyFloat
  | ninf : PyFloat
  | nan : PyFloat
deriving DecidableEq

/-- Digits of a character list read as a natural number. -/
def digitsToNat (cs : List Char) : Nat :=
  cs.foldl (fun acc c => acc * 10 + digVal c) 0

/-- Parse an optional sign, returning its factor and the remainder. -/
def parseSign : List Char → Int × List Char
  | '+' :: rest => (1, rest)
  | '-' :: rest => (-1, rest)
  | cs => (1, cs)

/-- Parse the magnitude part of a float literal: digits around an
optional dot with at least one digit present, then an optional exponent
with at least one digit. Returns the exact rational magnitude. -/
def parseFloatBody (cs : List Char) : Option ℚ :=
  let (intDigits, rest1) := spanDigits cs
  let (fracDigits, rest2) :=
    match rest1 with
    | '.' :: rest => spanDigits rest
    | _ => ([], rest1)
  if intDigits = [] ∧ fracDigits = [] then none
  else
    let mantissa : ℚ :=
      (digitsToNat intDigits : ℚ) +
        (digitsToNat fracDigits : ℚ) / ((10 : ℚ) ^ fracDigits.length)
    match rest2 with
    | [] => some mantissa
    | e :: rest4 =>
        if e = 'e' ∨ e = 'E' then
          let (esign, rest5) := parseSign rest4
          let (eDigits, rest6) := spanDigits rest5
          if eDigits = [] ∨ rest6 ≠ [] then none
          else some (mantissa * (10 : ℚ) ^ (esign * (digitsToNat eDigits : Int)))
        else none

/-- Python float() on a string: strip whitespace, read an optional
sign, then either an infinity or nan word (case-insensitive) or a
decimal literal with optional exponent. Underscore digit separators are
not modelled. Returns none exactly when float() raises ValueError. -/
def pyFloat (s : String) : Option PyFloat :=
  let cs := pyStripChars s.data
  let (sign, body) := parseSign cs
  let lowered := body.map pyLowerChar
  if lowered = "inf".data ∨ lowered = "infinity".data then
    some (if sign = 1 then .pinf else .ninf)
  else if lowered = "nan".data then some .nan
  else
    match parseFloatBody body with
    | some q => some (.finite (sign * q))
    | none => none

/-- Comparison weight less-or-equal zero on a float value; false on
nan as in Python. -/
def pyFloatLeZero : PyFloat → Bool
  | .finite q => q ≤ 0
  | .pinf => false
  | .ninf => true
  | .nan => false

/-- Comparison weight greater than 1000 on a float value; false on nan
as in Python. -/
def pyFloatGtThousand : PyFloat → Bool
  | .finite q => 1000 < q
  | .pinf => true
  | .ninf => false
  | .nan => false

/-- Lexicographic datetime comparison, used for the past-date check.
Microseconds of the current moment are not modelled. -/
def tmLt (a b : Tm) : Bool :=
  if a.y ≠ b.y then a.y < b.y
  else if a.mo ≠ b.mo then a.mo < b.mo
  else if a.d ≠ b.d then a.d < b.d
  else if a.hh ≠ b.hh then a.hh < b.hh
  else if a.mi ≠ b.mi then a.mi < b.mi
  else a.ss < b.ss

/-- The required fields of validate_parsed_data, in source order. -/
def requiredFields : List String :=
  ["shipper_name", "recipient_name", "package_weight", "shipping_date"]

/-- The validation report record. -/
structure ValidationReport where
  is_valid : Bool
  missing_required : List String
  found_fields : List String
  warnings : List String
deriving DecidableEq

/-- The Python test field not in data or not data of field: absent, or
present with a falsy (empty) string. -/
def fieldMissing (data : List (String × String)) (f : String) : Bool :=
  match alistLookup data f with
  | none => true
  | some s => s = ""

/-- JsonParser.validate_parsed_data on a canonical record (whose values
are always strings), with the current moment as an explicit argument in
place of datetime.now(). Required fields are checked first, then the
found fields are listed, then the weight and date warnings are
appended. -/
def validate_parsed_data (data : List (String × String)) (now : Tm) : ValidationReport :=
  let rep0 : ValidationReport :=
    { is_valid := true, missing_required := [], found_fields := [], warnings := [] }
  let rep1 := requiredFields.foldl
    (fun rep field =>
      if fieldMissing data field then
        { rep with missing_required := rep.missing_required ++ [field], is_valid := false }
      else rep)
    rep0
  let rep2 := canonicalFields.foldl
    (fun rep field =>
      match alistLookup data field with
      | some s => if s ≠ "" then { rep with found_fields := rep.found_fields ++ [field] } else rep
      | none => rep)
    rep1
  let rep3 :=
    match alistLookup data "package_weight" with
    | some s =>
        match pyFloat s with
        | some w =>
            if pyFloatLeZero w then
              { rep2 with warnings := rep2.warnings ++ ["Package weight should be greater than 0"] }
            else if pyFloatGtThousand w then
              { rep2 with warnings := rep2.warnings ++ ["Package weight seems unusually high"] }
            else rep2
        | none =>
            { rep2 with warnings := rep2.warnings ++ ["Package weight is not a valid number"] }
    | none => rep2
  match alistLookup data "shipping_date" with
  | some s =>
      match strptime fmtIso s with
      | some t =>
          if tmLt t now then
            { rep3 with warnings := rep3.warnings ++ ["Shipping date is in the past"] }
          else rep3
      | none =>
          { rep3 with warnings := rep3.warnings ++ ["Shipping date format is invalid"] }
  | none => rep3

/-- Shape of a value the flattener may store: specified from the code
of _flatten_json for the amended form of the flattening invariant. An
object never survives; an array survives exactly when it is empty or
its first element is not an object; every other value is a scalar. -/
def storedOk : JsonValue → Bool
  | .obj _ => false
  | .arr [] => true
  | .arr (first :: _) => !first.isObj
  | _ => true

/-- Modelled from the spec: pass 1 of the resolver, exact key match
iterating aliases in table order, returning the value of the first
alias that is a document key. -/
def specPass1 (data : List (String × JsonValue)) (keys : List String) : Option JsonValue :=
  (keys.find? (fun k => (alistLookup data k).isSome)).bind (fun k => alistLookup data k)

/-- Modelled from the spec: pass 2, case-insensitive exact key match in
the same alias order, against the lowercased key table. -/
def specPass2 (data : List (String × JsonValue)) (keys : List String) : Option JsonValue :=
  let tbl := pyDict (data.map (fun kv => (pyLowerStr kv.1, kv.2)))
  (keys.find? (fun k => (alistLookup tbl (pyLowerStr k)).isSome)).bind
    (fun k => alistLookup tbl (pyLowerStr k))

/-- Modelled from the spec: pass 3, case-insensitive substring match in
either direction, aliases in table order and document keys in flattened
insertion order within one alias. -/
def specPass3 (data : List (String × JsonValue)) (keys : List String) : Option JsonValue :=
  (keys.find? (fun k => data.any (fun kv => partialMatches k kv.1))).bind
    (fun k => (data.find? (fun kv => partialMatches k kv.1)).map (fun kv => kv.2))

/-- Modelled from the spec: the three-pass resolution policy, no later
pass consulted once an earlier pass hits. -/
def resolveSpec (data : List (String × JsonValue)) (keys : List String) : Option JsonValue :=
  match specPass1 data keys with
  | some v => some v
  | none =>
    match specPass2 data keys with
    | some v => some v
    | none => specPass3 data keys

/-- Modelled from the spec: date normalization as worded in the claim,
the first format of the fixed list that parses wins and is re-emitted,
and the original string passes through unchanged when none parses. -/
def specNormalizeDate (s : String) : String :=
  match fmtList.find? (fun fmt => (strptime fmt s).isSome) with
  | some fmt =>
      match strptime fmt s with
      | some t => strftimeYmd t
      | none => s
  | none => s

/-- Shape of one complete match of the weight regex: one or more
digits, then optionally a dot followed by any run of digits, nothing
else. -/
def numTokenShape (t : List Char) : Bool :=
  match spanDigits t with
  | ([], _) => false
  | (_, []) => true
  | (_, '.' :: ds2) => ds2.all Char.isDigit
  | (_, _ :: _) => false

/-- Modelled from the spec: a canonical date value, the re-emission of
a real calendar date of a four-digit non-degenerate year in
year-month-day form. -/
def isCanonDateStr (v : String) : Prop :=
  ∃ y mo d, 1000 ≤ y ∧ y ≤ 9999 ∧ 1 ≤ mo ∧ mo ≤ 12 ∧ 1 ≤ d ∧ d ≤ daysInMonth y mo ∧
    v = strftimeYmd ⟨y, mo, d, 0, 0, 0⟩

/-- Modelled from the spec: one canonical address line, trimmed,
non-empty and free of the separators the normalizer splits on. -/
def canonAddrLine (l : List Char) : Prop :=
  l ≠ [] ∧ pyStripChars l = l ∧ ∀ c ∈ l, c ≠ '\n' ∧ c ≠ '|' ∧ c ≠ ';'

/-- Modelled from the spec: a canonical address value, canonical lines
joined by line breaks. -/
def canonAddr (v : String) : Prop :=
  ∃ lines, (∀ l ∈ lines, canonAddrLine l) ∧ v.data = List.intercalate ['\n'] lines

/-- Modelled from the spec: the idempotence hypothesis of the claim, a
value already in the canonical normalized form of its field: trimmed
everywhere, a bare numeric token for the weight, a canonical date for
the shipping date, canonical lines for the two addresses. -/
def canonVal (f v : String) : Prop :=
  pyStripStr v = v ∧
  (f = "package_weight" → numTokenShape v.data = true) ∧
  (f = "shipping_date" → isCanonDateStr v) ∧
  (f = "shipper_address" ∨ f = "recipient_address" → canonAddr v)

/-- One resolution-and-normalization step of the parse fold, isolated
for reasoning about parse_json_data: the canonical entries a single
alias-table row contributes. -/
def parseStep (flattened : List (String × JsonValue)) (m : String × List String) :
    List (String × String) :=
  match _find_value_by_keys flattened m.2 with
  | none => []
  | some .null => []
  | some v => [(m.1, _normalize_value m.1 v)]

/-! ## Helper lemmas -/

theorem findSome_eq_bind_find {α β : Type} (f : α → Option β) :
    ∀ l : List α, l.findSome? f = (l.find? (fun a => (f a).isSome)).bind f := by
  intro l
  induction l with
  | nil => rfl
  | cons a l ih =>
    simp only [List.findSome?_cons, List.find?_cons]
    cases h : f a with
    | some b => simp [h]
    | none => simp [h, ih]

theorem find_isSome_eq_any {α : Type} (p : α → Bool) :
    ∀ l : List α, (l.find? p).isSome = l.any p := by
  intro l
  induction l with
  | nil => rfl
  | cons a l ih =>
    simp only [List.find?_cons, List.any_cons]
    cases h : p a <;> simp [h, ih]

theorem alistLookup_pyInsert {α : Type} (k1 : String) (v : α) (k : String) :
    ∀ acc, alistLookup (pyInsert acc k1 v) k =
      if k1 = k then some v else alistLookup acc k := by
  intro acc
  induction acc with
  | nil =>
    by_cases h : k1 = k <;> simp [pyInsert, alistLookup, h]
  | cons kv rest ih =>
    by_cases h1 : kv.1 = k1
    · by_cases h2 : k1 = k
      · simp [pyInsert, alistLookup, h1, h2]
      · have h3 : ¬ kv.1 = k := by rw [h1]; exact h2
        simp [pyInsert, alistLookup, h1, h2, h3]
    · by_cases h2 : kv.1 = k
      · have h3 : ¬ k1 = k := by intro e; exact h1 (by rw [h2, e])
        have h4 : ¬ k = k1 := fun e => h3 e.symm
        simp [pyInsert, alistLookup, h1, h2, h3, h4]
      · simp [pyInsert, alistLookup, h1, h2, ih]

theorem alistLookup_pyDictAux {α : Type} (k : String) :
    ∀ (items : List (String × α)) (acc : List (String × α)),
      alistLookup (items.foldl (fun a kv => pyInsert a kv.1 kv.2) acc) k =
        match items.reverse.find? (fun kv => kv.1 = k) with
        | some kv => some kv.2
        | none => alistLookup acc k := by
  intro items
  induction items with
  | nil => intro acc; rfl
  | cons kv rest ih =>
    intro acc
    rw [List.foldl_cons, ih]
    rw [List.reverse_cons, List.find?_append]
    cases h : rest.reverse.find? (fun kv => kv.1 = k) with
    | some kv2 => simp
    | none =>
      simp only [Option.none_or]
      by_cases hk : kv.1 = k <;> simp [List.find?, hk, alistLookup_pyInsert]

theorem alistLookup_pyDict {α : Type} (items : List (String × α)) (k : String) :
    alistLookup (pyDict items) k =
      (items.reverse.find? (fun kv => kv.1 = k)).map (fun kv => kv.2) := by
  rw [pyDict, alistLookup_pyDictAux]
  cases h : items.reverse.find? (fun kv => kv.1 = k) <;> simp [alistLookup]

/-! ## C1: three ordered resolution passes -/

/-- Claim C1: for every flattened document and canonical field, the
resolver tries the aliases in three ordered passes, exact match first,
then case-insensitive exact match, then case-insensitive substring
match in either direction with aliases in table order and document
keys in insertion order, and no later pass is consulted once an
earlier pass hits: the source function equals the three-pass policy as
worded by the spec. -/
theorem alias_resolution_three_passes_c1 :
    ∀ (data : List (String × JsonValue)) (keys : List String),
      _find_value_by_keys data keys = resolveSpec data keys := by
  intro data keys
  unfold _find_value_by_keys resolveSpec specPass1 specPass2 specPass3
  simp only [findSome_eq_bind_find]
  have h3 : (fun k => ((data.find? (fun kv => partialMatches k kv.1)).map
      (fun kv => kv.2)).isSome) = fun k => data.any (fun kv => partialMatches k kv.1) := by
    funext k
    rw [← find_isSome_eq_any]
    cases h : data.find? (fun kv => partialMatches k kv.1) <;> simp [h]
  simp only [h3]

/-! ## C10: lowercased table built by overwriting, last key wins -/

/-- Claim C10: in the case-insensitive pass the lowercased lookup table
is built by overwriting earlier keys with later ones, so a lowercased
alias lookup returns the value of the last document key with that
lowercased form; concretely, resolving alias name against keys Name
then NAME returns the value stored under NAME. -/
theorem ci_pass_last_key_wins_c10 :
    (∀ (data : List (String × JsonValue)) (k : String),
        alistLookup (pyDict (data.map (fun kv => (pyLowerStr kv.1, kv.2)))) (pyLowerStr k) =
          (data.reverse.find? (fun kv => pyLowerStr kv.1 = pyLowerStr k)).map
            (fun kv => kv.2)) ∧
    _find_value_by_keys [("Name", .str "first"), ("NAME", .str "last")] ["name"] =
      some (.str "last") := by
  constructor
  · intro data k
    rw [alistLookup_pyDict, ← List.map_reverse, List.find?_map]
    simp [Function.comp_def]
  · rfl

/-! ## C2: what survives flattening -/

/-- Counterexample to claim C2 as stated: flattening a document whose
array value starts with a number stores the whole array, so not every
stored value is a scalar. -/
theorem flattening_counterexample_c2 :
    ¬ (∀ kv ∈ _flatten_json (.obj [("a", .arr [.num "1", .num "2"])]) "",
        kv.2.isScalar = true) := by
  intro h
  have hm : (("a", JsonValue.arr [.num "1", .num "2"])) ∈
      _flatten_json (.obj [("a", .arr [.num "1", .num "2"])]) "" := by
    show _ ∈ [(("a" : String), JsonValue.arr [.num "1", .num "2"])]
    exact List.mem_singleton_self _
  have := h _ hm
  simp [JsonValue.isScalar] at this

theorem mem_pyInsert {α : Type} {x : String × α} {k : String} {v : α} :
    ∀ {acc : List (String × α)}, x ∈ pyInsert acc k v → x ∈ acc ∨ x = (k, v) := by
  intro acc
  induction acc with
  | nil => intro h; simp [pyInsert] at h; right; exact h
  | cons kv rest ih =>
    intro h
    by_cases hk : kv.1 = k
    · simp only [pyInsert, if_pos hk] at h
      rcases List.mem_cons.mp h with h1 | h1
      · right; rw [h1, hk]
      · left; exact List.mem_cons_of_mem _ h1
    · simp only [pyInsert, if_neg hk] at h
      rcases List.mem_cons.mp h with h1 | h1
      · left; rw [h1]; exact List.mem_cons_self _ _
      · rcases ih h1 with h2 | h2
        · left; exact List.mem_cons_of_mem _ h2
        · right; exact h2

theorem mem_pyDictAux {α : Type} {x : String × α} :
    ∀ (items acc : List (String × α)),
      x ∈ items.foldl (fun a kv => pyInsert a kv.1 kv.2) acc → x ∈ acc ∨ x ∈ items := by
  intro items
  induction items with
  | nil => intro acc h; left; exact h
  | cons kv rest ih =>
    intro acc h
    rw [List.foldl_cons] at h
    rcases ih _ h with h1 | h1
    · rcases mem_pyInsert h1 with h2 | h2
      · left; exact h2
      · right; rw [h2]; exact List.mem_cons_self _ _
    · right; exact List.mem_cons_of_mem _ h1

theorem mem_pyDict {α : Type} {x : String × α} {items : List (String × α)}
    (h : x ∈ pyDict items) : x ∈ items := by
  rcases mem_pyDictAux items [] h with h1 | h1
  · cases h1
  · exact h1

theorem mem_flatten_obj {kv : String × JsonValue} {es : List (String × JsonValue)}
    {pk : String} (h : kv ∈ _flatten_json (.obj es) pk) : kv ∈ flattenEntries es pk := by
  rw [_flatten_json] at h
  exact mem_pyDict h

theorem flattenEntries_storedOk :
    ∀ (n : Nat) (entries : List (String × JsonValue)) (parentKey : String),
      sizeOf entries ≤ n →
      ∀ kv ∈ flattenEntries entries parentKey, storedOk kv.2 = true := by
  intro n
  induction n with
  | zero =>
    intro entries parentKey hsz
    cases entries <;> simp_all
  | succ n ih =>
    intro entries parentKey hsz kv hkv
    match entries with
    | [] => simp [flattenEntries] at hkv
    | (key, value) :: rest =>
      have hrest : sizeOf rest ≤ n := by
        simp only [List.cons.sizeOf_spec] at hsz
        omega
      cases value with
      | obj es =>
        rw [flattenEntries] at hkv
        rcases List.mem_append.mp hkv with hin | hin
        · have hes : sizeOf es ≤ n := by
            simp only [List.cons.sizeOf_spec, Prod.mk.sizeOf_spec,
              JsonValue.obj.sizeOf_spec] at hsz
            omega
          exact ih es _ hes kv (mem_flatten_obj hin)
        · exact ih rest _ hrest kv hin
      | arr elems =>
        cases elems with
        | nil =>
          rw [flattenEntries] at hkv
          case x_2 => intro es h; cases h
          case x_3 => intro first tail h; cases h
          rcases List.mem_append.mp hkv with hin | hin
          · simp only [List.mem_singleton] at hin
            rw [hin]
            rfl
          · exact ih rest _ hrest kv hin
        | cons first tail =>
          rw [flattenEntries] at hkv
          by_cases hobj : first.isObj = true
          · rw [if_pos hobj] at hkv
            rcases List.mem_append.mp hkv with hin | hin
            · cases first with
              | obj es =>
                have hes : sizeOf es ≤ n := by
                  simp only [List.cons.sizeOf_spec, Prod.mk.sizeOf_spec,
                    JsonValue.obj.sizeOf_spec, JsonValue.arr.sizeOf_spec] at hsz
                  omega
                exact ih es _ hes kv (mem_flatten_obj hin)
              | null => cases hobj
              | bool b => cases hobj
              | num s => cases hobj
              | str s => cases hobj
              | arr l => cases hobj
            · exact ih rest _ hrest kv hin
          · rw [if_neg hobj] at hkv
            rcases List.mem_append.mp hkv with hin | hin
            · simp only [List.mem_singleton] at hin
              rw [hin]
              simp only [storedOk]
              simp only [Bool.not_eq_true] at hobj
              simp [hobj]
            · exact ih rest _ hrest kv hin
      | null =>
        rw [flattenEntries] at hkv
        case x_2 => intro es h; cases h
        case x_3 => intro first tail h; cases h
        rcases List.mem_append.mp hkv with hin | hin
        · simp only [List.mem_singleton] at hin; rw [hin]; rfl
        · exact ih rest _ hrest kv hin
      | bool b =>
        rw [flattenEntries] at hkv
        case x_2 => intro es h; cases h
        case x_3 => intro first tail h; cases h
        rcases List.mem_append.mp hkv with hin | hin
        · simp only [List.mem_singleton] at hin; rw [hin]; rfl
        · exact ih rest _ hrest kv hin
      | num s =>
        rw [flattenEntries] at hkv
        case x_2 => intro es h; cases h
        case x_3 => intro first tail h; cases h
        rcases List.mem_append.mp hkv with hin | hin
        · simp only [List.mem_singleton] at hin; rw [hin]; rfl
        · exact ih rest _ hrest kv hin
      | str s =>
        rw [flattenEntries] at hkv
        case x_2 => intro es h; cases h
        case x_3 => intro first tail h; cases h
        rcases List.mem_append.mp hkv with hin | hin
        · simp only [List.mem_singleton] at hin; rw [hin]; rfl
        · exact ih rest _ hrest kv hin

/-- Claim C2 amended: flattened values are never objects, and an array
survives as a stored value exactly when its first element is not an
object (or it is empty); all other stored values are scalars. -/
theorem flattening_values_amended_c2 :
    ∀ (v : JsonValue) (parentKey : String),
      ∀ kv ∈ _flatten_json v parentKey, storedOk kv.2 = true := by
  intro v parentKey kv hkv
  cases v with
  | obj entries =>
    exact flattenEntries_storedOk (sizeOf entries) entries parentKey
      (Nat.le_refl _) kv (mem_flatten_obj hkv)
  | null =>
    rw [_flatten_json] at hkv
    case x_2 => intro a h; cases h
    cases mem_pyDict hkv
  | bool b =>
    rw [_flatten_json] at hkv
    case x_2 => intro a h; cases h
    cases mem_pyDict hkv
  | num s =>
    rw [_flatten_json] at hkv
    case x_2 => intro a h; cases h
    cases mem_pyDict hkv
  | str s =>
    rw [_flatten_json] at hkv
    case x_2 => intro a h; cases h
    cases mem_pyDict hkv
  | arr l =>
    rw [_flatten_json] at hkv
    case x_2 => intro a h; cases h
    cases mem_pyDict hkv

/-- Witness for the amended flattening invariant at a concrete
document. -/
theorem flattening_values_amended_c2_witness :
    (("a", JsonValue.str "x") ∈ _flatten_json (.obj [("a", .str "x")]) "") ∧
      storedOk (JsonValue.str "x") = true := by
  have hm : (("a", JsonValue.str "x")) ∈ _flatten_json (.obj [("a", .str "x")]) "" := by
    show _ ∈ [(("a" : String), JsonValue.str "x")]
    exact List.mem_singleton_self _
  exact ⟨hm, flattening_values_amended_c2 _ "" _ hm⟩

/-! ## Parse-fold helpers -/

theorem parse_foldl_eq_flatMap (flat : List (String × JsonValue)) :
    ∀ (ms : List (String × List String)) (acc : List (String × String)),
      ms.foldl (fun acc m =>
        match _find_value_by_keys flat m.2 with
        | none => acc
        | some .null => acc
        | some v => acc ++ [(m.1, _normalize_value m.1 v)]) acc =
      acc ++ ms.flatMap (parseStep flat) := by
  intro ms
  induction ms with
  | nil => intro acc; simp
  | cons m rest ih =>
    intro acc
    rw [List.foldl_cons, ih, List.flatMap_cons]
    cases hv : _find_value_by_keys flat m.2 with
    | none => simp [parseStep, hv]
    | some v =>
      cases v with
      | null => simp [parseStep, hv]
      | bool b => simp [parseStep, hv]
      | num s => simp [parseStep, hv]
      | str s => simp [parseStep, hv]
      | arr l => simp [parseStep, hv]
      | obj es => simp [parseStep, hv]

theorem parse_fields_eq (data : JsonValue) :
    (parse_json_data data).fields =
      field_mappings.flatMap (parseStep (_flatten_json data "")) := by
  have h0 : (parse_json_data data).fields =
      field_mappings.foldl (fun acc m =>
        match _find_value_by_keys (_flatten_json data "") m.2 with
        | none => acc
        | some .null => acc
        | some v => acc ++ [(m.1, _normalize_value m.1 v)]) [] := rfl
  rw [h0, parse_foldl_eq_flatMap]
  simp

theorem alistLookup_append {α : Type} (k : String) :
    ∀ (a b : List (String × α)),
      alistLookup (a ++ b) k =
        match alistLookup a k with
        | some v => some v
        | none => alistLookup b k := by
  intro a b
  induction a with
  | nil => simp [alistLookup]
  | cons kv rest ih =>
    by_cases h : kv.1 = k <;> simp [alistLookup, h, ih]

theorem nodup_keys_inj {α : Type} :
    ∀ (l : List (String × α)), (l.map Prod.fst).Nodup →
      ∀ a ∈ l, ∀ b ∈ l, a.1 = b.1 → a = b := by
  intro l
  induction l with
  | nil => intro _ a ha; cases ha
  | cons x rest ih =>
    intro hnd a ha b hb hab
    rw [List.map_cons, List.nodup_cons] at hnd
    rcases List.mem_cons.mp ha with ha1 | ha1 <;> rcases List.mem_cons.mp hb with hb1 | hb1
    · rw [ha1, hb1]
    · exfalso
      apply hnd.1
      have hx : x.1 = b.1 := by rw [← ha1]; exact hab
      rw [hx]
      exact List.mem_map_of_mem Prod.fst hb1
    · exfalso
      apply hnd.1
      have hx : x.1 = a.1 := by rw [← hb1]; exact hab.symm
      rw [hx]
      exact List.mem_map_of_mem Prod.fst ha1
    · exact ih hnd.2 a ha1 b hb1 hab

theorem lookup_flatMap_parseStep_none (flat : List (String × JsonValue)) (f : String) :
    ∀ (ms : List (String × List String)),
      (∀ m ∈ ms, m.1 = f → parseStep flat m = []) →
      alistLookup (ms.flatMap (parseStep flat)) f = none := by
  intro ms
  induction ms with
  | nil => intro _; rfl
  | cons m rest ih =>
    intro h
    rw [List.flatMap_cons, alistLookup_append]
    have hrest := ih (fun m2 hm2 => h m2 (List.mem_cons_of_mem _ hm2))
    by_cases hf : m.1 = f
    · rw [h m (List.mem_cons_self _ _) hf]
      simpa [alistLookup] using hrest
    · cases hv : _find_value_by_keys flat m.2 with
      | none => simp [parseStep, hv, hrest, alistLookup]
      | some v =>
        cases v <;> simp [parseStep, hv, alistLookup, hf, hrest]

/-! ## C3: a resolved null is dropped, not kept as empty string -/

/-- Counterexample to claim C3 as stated: in a document whose
shipper_name is JSON null, resolution hits the null, yet the resulting
record does not map shipper_name to the empty string: it omits the
field entirely. -/
theorem null_field_counterexample_c3 :
    _find_value_by_keys (_flatten_json (.obj [("shipper_name", .null)]) "")
        ["shipper_name", "shipper", "sender_name", "sender", "from_name", "from",
         "origin_name", "origin_company", "shipping_company", "company_name"] =
      some .null ∧
    alistLookup (parse_json_data (.obj [("shipper_name", .null)])).fields "shipper_name" =
      none := by
  exact ⟨rfl, rfl⟩

/-- Claim C3 amended: the normalizer does map a Null raw value to the
empty string, but a canonical field whose alias resolution returns the
Null value is omitted from the canonical record, because the parser
cannot tell a Null hit from no match. -/
theorem null_normalizes_empty_but_field_omitted_c3 :
    (∀ f, _normalize_value f .null = "") ∧
    (∀ (data : JsonValue) (m : String × List String), m ∈ field_mappings →
      _find_value_by_keys (_flatten_json data "") m.2 = some .null →
      alistLookup (parse_json_data data).fields m.1 = none) := by
  constructor
  · intro f; rfl
  · intro data m hm hfind
    rw [parse_fields_eq]
    apply lookup_flatMap_parseStep_none
    intro m2 hm2 hkey
    have hnd : (field_mappings.map Prod.fst).Nodup := by decide
    have : m2 = m := nodup_keys_inj field_mappings hnd m2 hm2 m hm hkey
    rw [this]
    simp [parseStep, hfind]

/-- Witness for the amended null behavior at a concrete document whose
notes key holds null, resolved by the special_instructions row. -/
theorem null_normalizes_empty_but_field_omitted_c3_witness :
    _normalize_value "special_instructions" .null = "" ∧
    alistLookup (parse_json_data (.obj [("notes", .null)])).fields "special_instructions" =
      none := by
  refine ⟨null_normalizes_empty_but_field_omitted_c3.1 _, ?_⟩
  exact null_normalizes_empty_but_field_omitted_c3.2 (.obj [("notes", .null)])
    ("special_instructions",
      ["special_instructions", "instructions", "notes", "comments", "remarks",
       "delivery_instructions", "handling_instructions", "special_notes", "description"])
    (by decide) rfl

/-! ## C9: non-object inputs flatten to nothing -/

/-- Claim C9: parsing a top-level value that is not an object yields a
record with no canonical fields and an empty list of original flattened
keys, because flattening a non-object input produces the empty
mapping. -/
theorem non_object_input_empty_c9 :
    ∀ (data : JsonValue), data.isObj = false →
      parse_json_data data = { fields := [], original_keys := [] } := by
  intro data h
  cases data with
  | obj entries => simp [JsonValue.isObj] at h
  | null => rfl
  | bool b => rfl
  | num s => rfl
  | str s => rfl
  | arr l => rfl

/-- Witness for the non-object claim at a concrete array input. -/
theorem non_object_input_empty_c9_witness :
    (JsonValue.arr [.num "1"]).isObj = false ∧
      parse_json_data (.arr [.num "1"]) = { fields := [], original_keys := [] } :=
  ⟨rfl, non_object_input_empty_c9 _ rfl⟩

/-! ## C4: ordered date formats, first parse wins -/

/-- Claim C4: date normalization tries the fixed format list in order,
the first format that parses wins and is re-emitted as year-month-day,
an unparseable string is returned unchanged, and the US-slash document
value 01/25/2024 normalizes to 2024-01-25. -/
theorem date_normalization_c4 :
    (∀ s : String, _normalize_date s = specNormalizeDate s) ∧
    _normalize_date "01/25/2024" = "2024-01-25" := by
  constructor
  · intro s
    unfold _normalize_date specNormalizeDate
    rw [findSome_eq_bind_find]
    cases h : fmtList.find? (fun fmt => (strptime fmt s).isSome) with
    | none => rfl
    | some fmt =>
      cases h2 : strptime fmt s with
      | some t => simp [h2]
      | none => simp [h2]
  · rfl

/-! ## C5: first numeric token wins, trimmed string as fallback -/

theorem takeWhile_eq_self_of_all {α : Type} (p : α → Bool) :
    ∀ (l : List α), (∀ c ∈ l, p c = true) → l.takeWhile p = l := by
  intro l
  induction l with
  | nil => intro _; rfl
  | cons c rest ih =>
    intro h
    simp [List.takeWhile_cons, h c (List.mem_cons_self _ _),
      ih (fun x hx => h x (List.mem_cons_of_mem _ hx))]

theorem dropWhile_eq_nil_of_all {α : Type} (p : α → Bool) :
    ∀ (l : List α), (∀ c ∈ l, p c = true) → l.dropWhile p = [] := by
  intro l
  induction l with
  | nil => intro _; rfl
  | cons c rest ih =>
    intro h
    simp [List.dropWhile_cons, h c (List.mem_cons_self _ _),
      ih (fun x hx => h x (List.mem_cons_of_mem _ hx))]

theorem takeWhile_append_of_all {α : Type} (p : α → Bool) :
    ∀ (l r : List α), (∀ c ∈ l, p c = true) →
      (l ++ r).takeWhile p = l ++ r.takeWhile p := by
  intro l r
  induction l with
  | nil => intro _; rfl
  | cons c rest ih =>
    intro h
    simp [List.takeWhile_cons, h c (List.mem_cons_self _ _),
      ih (fun x hx => h x (List.mem_cons_of_mem _ hx))]

theorem dropWhile_append_of_all {α : Type} (p : α → Bool) :
    ∀ (l r : List α), (∀ c ∈ l, p c = true) →
      (l ++ r).dropWhile p = r.dropWhile p := by
  intro l r
  induction l with
  | nil => intro _; rfl
  | cons c rest ih =>
    intro h
    simp [List.dropWhile_cons, h c (List.mem_cons_self _ _),
      ih (fun x hx => h x (List.mem_cons_of_mem _ hx))]

theorem numTokenShape_digits (d : Char) (ds : List Char)
    (h : ∀ c ∈ d :: ds, c.isDigit = true) : numTokenShape (d :: ds) = true := by
  unfold numTokenShape spanDigits
  rw [takeWhile_eq_self_of_all _ _ h, dropWhile_eq_nil_of_all _ _ h]

theorem numTokenShape_with_dot (d : Char) (ds ds2 : List Char)
    (hds : ∀ c ∈ d :: ds, c.isDigit = true) (hds2 : ∀ c ∈ ds2, c.isDigit = true) :
    numTokenShape ((d :: ds) ++ '.' :: ds2) = true := by
  unfold numTokenShape spanDigits
  rw [takeWhile_append_of_all _ _ _ hds, dropWhile_append_of_all _ _ _ hds]
  rw [List.takeWhile_cons, List.dropWhile_cons]
  simp only [show ('.' : Char).isDigit = false from rfl, Bool.false_eq_true, if_false,
    List.append_nil]
  rw [List.all_eq_true]
  exact hds2

theorem matchNumToken_none_head (c : Char) (cs : List Char)
    (h : matchNumToken (c :: cs) = none) : c.isDigit = false := by
  by_cases hd : c.isDigit
  · exfalso
    unfold matchNumToken spanDigits at h
    rw [List.takeWhile_cons, hd] at h
    simp only [if_true] at h
    split at h
    · simp at h
    · simp at h
  · simpa using hd

theorem matchNumToken_some (l : List Char) (t : List Char)
    (h : matchNumToken l = some t) :
    ∃ rest, l = t ++ rest ∧ numTokenShape t = true := by
  have hall : ∀ c ∈ l.takeWhile Char.isDigit, c.isDigit = true :=
    fun c hc => List.mem_takeWhile_imp hc
  have hsplit : l.takeWhile Char.isDigit ++ l.dropWhile Char.isDigit = l :=
    List.takeWhile_append_dropWhile Char.isDigit l
  unfold matchNumToken spanDigits at h
  rcases hds : l.takeWhile Char.isDigit with _ | ⟨d, ds⟩
  · rw [hds] at h
    simp at h
  · rw [hds] at h
    rw [hds] at hall hsplit
    rcases hdr : l.dropWhile Char.isDigit with _ | ⟨c2, rest2⟩
    · rw [hdr] at h
      rw [hdr, List.append_nil] at hsplit
      split at h
      · rename_i heq
        exact absurd heq (by simp)
      · rename_i heq
        rw [Prod.mk.injEq] at heq
        obtain ⟨h1, h2⟩ := heq
        rw [← h1, ← h2] at h
        simp only [Option.some.injEq] at h
        subst h
        exact ⟨[], by rw [List.append_nil, hsplit], numTokenShape_digits d ds hall⟩
    · rw [hdr] at h
      rw [hdr] at hsplit
      split at h
      · rename_i heq
        exact absurd heq (by simp)
      · rename_i heq
        rw [Prod.mk.injEq] at heq
        obtain ⟨h1, h2⟩ := heq
        rw [← h1, ← h2] at h
        by_cases hc2 : c2 = '.'
        · subst hc2
          simp only [Option.some.injEq] at h
          subst h
          refine ⟨rest2.dropWhile Char.isDigit, ?_, ?_⟩
          · simp only [List.append_assoc, List.cons_append, List.nil_append]
            rw [List.takeWhile_append_dropWhile]
            exact hsplit.symm
          · exact numTokenShape_with_dot d ds _ hall
              (fun c hc => List.mem_takeWhile_imp hc)
        · have harm : (match c2 :: rest2 with
              | '.' :: rest2 => some ((d :: ds) ++ '.' ::
                  (rest2.takeWhile Char.isDigit, rest2.dropWhile Char.isDigit).1)
              | _ => some (d :: ds)) = some (d :: ds) := by
            split
            · rename_i heq2
              rw [List.cons.injEq] at heq2
              exact absurd heq2.1 hc2
            · rfl
          rw [harm] at h
          simp only [Option.some.injEq] at h
          subst h
          exact ⟨c2 :: rest2, hsplit.symm, numTokenShape_digits d ds hall⟩

theorem searchNumToken_none_chars :
    ∀ cs, searchNumToken cs = none → ∀ c ∈ cs, c.isDigit = false := by
  intro cs
  induction cs with
  | nil => intro _ c hc; cases hc
  | cons c rest ih =>
    intro h x hx
    rw [searchNumToken] at h
    rcases hm : matchNumToken (c :: rest) with _ | t
    · rw [hm] at h
      rcases List.mem_cons.mp hx with hx1 | hx1
      · rw [hx1]; exact matchNumToken_none_head c rest hm
      · exact ih h x hx1
    · rw [hm] at h; cases h

theorem searchNumToken_decomp :
    ∀ cs t, searchNumToken cs = some t →
      ∃ pre rest, cs = pre ++ t ++ rest ∧ (∀ c ∈ pre, c.isDigit = false) ∧
        numTokenShape t = true := by
  intro cs
  induction cs with
  | nil => intro t h; cases h
  | cons c rest ih =>
    intro t h
    rw [searchNumToken] at h
    rcases hm : matchNumToken (c :: rest) with _ | t0
    · rw [hm] at h
      obtain ⟨pre, r2, hsp, hpre, hshape⟩ := ih t h
      refine ⟨c :: pre, r2, ?_, ?_, hshape⟩
      · rw [List.cons_append, List.cons_append, ← hsp]
      · intro x hx
        rcases List.mem_cons.mp hx with hx1 | hx1
        · rw [hx1]; exact matchNumToken_none_head c rest hm
        · exact hpre x hx1
    · rw [hm] at h
      simp only [Option.some.injEq] at h
      subst h
      obtain ⟨r2, hsp, hshape⟩ := matchNumToken_some _ _ hm
      exact ⟨[], r2, by rw [List.nil_append, ← hsp], fun x hx => (List.not_mem_nil x hx).elim,
        hshape⟩

theorem normalize_weight_eq (v : JsonValue) (hv : v ≠ .null) :
    _normalize_value "package_weight" v =
      match searchNumToken (pyStripStr (pyStr v)).data with
      | some t => String.mk t
      | none => pyStripStr (pyStr v) := by
  cases v with
  | null => exact absurd rfl hv
  | bool b => rfl
  | num s => rfl
  | str s => rfl
  | arr l => rfl
  | obj es => rfl

/-- Claim C5: normalizing package_weight returns the first numeric
token (one or more digits, an optional dot, optional digits — the
leftmost regex match) of the stringified stripped value, and falls back
to that stripped string when it contains no digit at all; concretely a
document with weight 25.3 lbs yields package_weight 25.3. -/
theorem weight_extraction_c5 :
    (∀ v : JsonValue, v = .null ∨
      (∃ t pre rest, searchNumToken (pyStripStr (pyStr v)).data = some t ∧
        _normalize_value "package_weight" v = String.mk t ∧
        (pyStripStr (pyStr v)).data = pre ++ t ++ rest ∧
        (∀ c ∈ pre, c.isDigit = false) ∧ numTokenShape t = true) ∨
      ((∀ c ∈ (pyStripStr (pyStr v)).data, c.isDigit = false) ∧
        _normalize_value "package_weight" v = pyStripStr (pyStr v))) ∧
    (parse_json_data (.obj [("weight", .str "25.3 lbs")])).fields =
      [("package_weight", "25.3")] := by
  constructor
  · intro v
    by_cases hv : v = .null
    · left; exact hv
    · right
      rcases hs : searchNumToken (pyStripStr (pyStr v)).data with _ | t
      · right
        refine ⟨searchNumToken_none_chars _ hs, ?_⟩
        rw [normalize_weight_eq v hv, hs]
      · left
        obtain ⟨pre, rest, hsp, hpre, hshape⟩ := searchNumToken_decomp _ _ hs
        exact ⟨t, pre, rest, rfl, by rw [normalize_weight_eq v hv, hs], hsp, hpre, hshape⟩
  · rfl

/-! ## C6 and C7: the validation report -/

theorem fold_missing (data : List (String × String)) :
    ∀ (fs : List String) (rep : ValidationReport),
      fs.foldl (fun rep field =>
        if fieldMissing data field then
          { rep with missing_required := rep.missing_required ++ [field], is_valid := false }
        else rep) rep =
      { rep with is_valid := rep.is_valid && !fs.any (fieldMissing data),
                 missing_required := rep.missing_required ++ fs.filter (fieldMissing data) } := by
  intro fs
  induction fs with
  | nil => intro rep; simp
  | cons f rest ih =>
    intro rep
    rw [List.foldl_cons]
    by_cases h : fieldMissing data f = true
    · rw [if_pos h, ih]
      simp [h]
    · rw [if_neg h, ih]
      simp only [Bool.not_eq_true] at h
      simp [h]

theorem fold_found (data : List (String × String)) :
    ∀ (fs : List String) (rep : ValidationReport),
      fs.foldl (fun rep field =>
        match alistLookup data field with
        | some s => if s ≠ "" then { rep with found_fields := rep.found_fields ++ [field] }
            else rep
        | none => rep) rep =
      { rep with found_fields := rep.found_fields ++ fs.filter (fun f =>
          match alistLookup data f with
          | some s => decide (s ≠ "")
          | none => false) } := by
  intro fs
  induction fs with
  | nil => intro rep; simp
  | cons f rest ih =>
    intro rep
    rw [List.foldl_cons]
    cases hf : alistLookup data f with
    | none => rw [ih]; simp [List.filter_cons, hf]
    | some s =>
      rw [ih]
      by_cases hs : s = ""
      · simp [List.filter_cons, hf, hs]
      · simp [List.filter_cons, hf, hs]

theorem validate_missing_eq (data : List (String × String)) (now : Tm) :
    (validate_parsed_data data now).missing_required =
      requiredFields.filter (fieldMissing data) := by
  simp only [validate_parsed_data, fold_missing, fold_found]
  repeat' split
  all_goals simp

theorem validate_isvalid_eq (data : List (String × String)) (now : Tm) :
    (validate_parsed_data data now).is_valid =
      !requiredFields.any (fieldMissing data) := by
  simp only [validate_parsed_data, fold_missing, fold_found]
  repeat' split
  all_goals simp

theorem validate_found_eq (data : List (String × String)) (now : Tm) :
    (validate_parsed_data data now).found_fields =
      canonicalFields.filter (fun f =>
        match alistLookup data f with
        | some s => decide (s ≠ "")
        | none => false) := by
  simp only [validate_parsed_data, fold_missing, fold_found]
  repeat' split
  all_goals simp

theorem validate_warnings_eq (data : List (String × String)) (now : Tm) :
    (validate_parsed_data data now).warnings =
      (match alistLookup data "package_weight" with
       | some s =>
           match pyFloat s with
           | some w =>
               if pyFloatLeZero w then ["Package weight should be greater than 0"]
               else if pyFloatGtThousand w then ["Package weight seems unusually high"]
               else []
           | none => ["Package weight is not a valid number"]
       | none => []) ++
      (match alistLookup data "shipping_date" with
       | some s =>
           match strptime fmtIso s with
           | some t => if tmLt t now then ["Shipping date is in the past"] else []
           | none => ["Shipping date format is invalid"]
       | none => []) := by
  simp only [validate_parsed_data, fold_missing, fold_found]
  repeat' split
  all_goals simp

/-- Claim C6: the report is invalid exactly when some required field is
absent or empty, missing_required collects exactly those required
fields in order, found_fields lists exactly the canonical fields
present with a non-empty value, and a record missing shipping_date is
invalid with shipping_date among the missing fields. -/
theorem validation_required_fields_c6 :
    (∀ (data : List (String × String)) (now : Tm),
      ((validate_parsed_data data now).is_valid = false ↔
        ∃ f ∈ requiredFields, fieldMissing data f = true) ∧
      (validate_parsed_data data now).missing_required =
        requiredFields.filter (fieldMissing data) ∧
      (validate_parsed_data data now).found_fields =
        canonicalFields.filter (fun f =>
          match alistLookup data f with
          | some s => decide (s ≠ "")
          | none => false)) ∧
    ((validate_parsed_data [("shipper_name", "A"), ("recipient_name", "B")]
        ⟨2026, 10, 12, 0, 0, 0⟩).is_valid = false ∧
      "shipping_date" ∈ (validate_parsed_data [("shipper_name", "A"), ("recipient_name", "B")]
        ⟨2026, 10, 12, 0, 0, 0⟩).missing_required) := by
  refine ⟨fun data now => ⟨?_, validate_missing_eq data now, validate_found_eq data now⟩,
    by rw [validate_isvalid_eq]; rfl, by rw [validate_missing_eq]; decide⟩
  rw [validate_isvalid_eq]
  simp [List.any_eq_true]

/-- Claim C7: the validator is a total function on canonical records
and every anomaly surfaces structurally: a missing or empty required
field lands in missing_required, an unparseable weight and an
unparseable date each land in warnings, never as a raised error. -/
theorem validator_never_raises_c7 :
    ∀ (data : List (String × String)) (now : Tm),
      (∀ f ∈ requiredFields, fieldMissing data f = true →
        f ∈ (validate_parsed_data data now).missing_required) ∧
      (∀ s, alistLookup data "package_weight" = some s → pyFloat s = none →
        "Package weight is not a valid number" ∈ (validate_parsed_data data now).warnings) ∧
      (∀ s, alistLookup data "shipping_date" = some s → strptime fmtIso s = none →
        "Shipping date format is invalid" ∈ (validate_parsed_data data now).warnings) := by
  intro data now
  refine ⟨?_, ?_, ?_⟩
  · intro f hf hmiss
    rw [validate_missing_eq]
    exact List.mem_filter.mpr ⟨hf, hmiss⟩
  · intro s hs hfl
    rw [validate_warnings_eq, hs]
    simp [hfl]
  · intro s hs hdate
    rw [validate_warnings_eq, hs]
    simp [hdate]

/-- Witness for the validator claim on a record whose weight and date
are unparseable and whose name fields are absent. -/
theorem validator_never_raises_c7_witness :
    "shipper_name" ∈ (validate_parsed_data [("package_weight", "abc"), ("shipping_date", "soon")]
        ⟨2026, 10, 12, 0, 0, 0⟩).missing_required ∧
    "Package weight is not a valid number" ∈
      (validate_parsed_data [("package_weight", "abc"), ("shipping_date", "soon")]
        ⟨2026, 10, 12, 0, 0, 0⟩).warnings ∧
    "Shipping date format is invalid" ∈
      (validate_parsed_data [("package_weight", "abc"), ("shipping_date", "soon")]
        ⟨2026, 10, 12, 0, 0, 0⟩).warnings := by
  obtain ⟨h1, h2, h3⟩ := validator_never_raises_c7
    [("package_weight", "abc"), ("shipping_date", "soon")] ⟨2026, 10, 12, 0, 0, 0⟩
  exact ⟨h1 "shipper_name" (by decide) rfl, h2 "abc" rfl rfl, h3 "soon" rfl rfl⟩

/-! ## C8: idempotence on already-canonical records -/

theorem digitChar_isDigit (n : Nat) : (digitChar n).isDigit = true := by
  have h : n % 10 < 10 := by omega
  rw [digitChar]
  generalize n % 10 = m at h ⊢
  interval_cases m <;> rfl

theorem digVal_digitChar (n : Nat) : digVal (digitChar n) = n % 10 := by
  have h : n % 10 < 10 := by omega
  rw [digitChar]
  generalize n % 10 = m at h ⊢
  interval_cases m <;> rfl

theorem matchStates_cons_singleton (dir : Dir) (ds : List Dir) (t : Tm) (cs : List Char) :
    matchStates (dir :: ds) [(t, cs)] =
      matchStates ds ((dirAlts dir cs).map (fun p => (applyDir t dir p.1, p.2))) := by
  rw [matchStates]
  simp [stepDir]

theorem yearChars_eq_of_ge (y : Nat) (hy1 : 1000 ≤ y) :
    yearChars y =
      [digitChar (y / 1000), digitChar (y / 100), digitChar (y / 10), digitChar y] := by
  unfold yearChars
  rw [if_neg (by omega), if_neg (by omega), if_neg (by omega)]

theorem dY_alts (y : Nat) (hy1 : 1000 ≤ y) (hy2 : y ≤ 9999) (rest : List Char) :
    dirAlts .dY (yearChars y ++ rest) = [(y, rest)] := by
  rw [yearChars_eq_of_ge y hy1]
  show dirAlts .dY (digitChar (y / 1000) :: digitChar (y / 100) :: digitChar (y / 10) ::
    digitChar y :: rest) = [(y, rest)]
  simp only [dirAlts, digitChar_isDigit, Bool.and_self, if_true, digVal_digitChar]
  have hv : y / 1000 % 10 * 1000 + y / 100 % 10 * 100 + y / 10 % 10 * 10 + y % 10 = y := by
    omega
  rw [hv]

theorem lit_dash (rest : List Char) : dirAlts (.lit '-') ('-' :: rest) = [(0, rest)] := rfl

theorem dm_step (mo : Nat) (hmo1 : 1 ≤ mo) (hmo2 : mo ≤ 12) (t : Tm) (ds : List Dir)
    (rest : List Char) :
    matchStates (.dm :: .lit '-' :: ds) [(t, twoDigitChars mo ++ '-' :: rest)] =
      matchStates ds [({ t with mo := mo }, rest)] := by
  interval_cases mo <;> rfl

theorem dd_final (d : Nat) (hd1 : 1 ≤ d) (hd2 : d ≤ 31) (t : Tm) :
    ∃ junk, matchStates [.dd] [(t, twoDigitChars d)] =
      ({ t with d := d }, ([] : List Char)) :: junk := by
  interval_cases d <;> exact ⟨_, rfl⟩

theorem daysInMonth_le31 (y mo : Nat) : daysInMonth y mo ≤ 31 := by
  unfold daysInMonth
  repeat' split
  all_goals omega

theorem strptime_roundtrip (y mo d : Nat) (hy1 : 1000 ≤ y) (hy2 : y ≤ 9999)
    (hmo1 : 1 ≤ mo) (hmo2 : mo ≤ 12) (hd1 : 1 ≤ d) (hday : d ≤ daysInMonth y mo) :
    strptime fmtIso (strftimeYmd ⟨y, mo, d, 0, 0, 0⟩) = some ⟨y, mo, d, 0, 0, 0⟩ := by
  have hd31 : d ≤ 31 := le_trans hday (daysInMonth_le31 y mo)
  have hdata : (strftimeYmd ⟨y, mo, d, 0, 0, 0⟩).data =
      yearChars y ++ '-' :: (twoDigitChars mo ++ '-' :: twoDigitChars d) := by
    show (yearChars y ++ '-' :: twoDigitChars mo ++ '-' :: twoDigitChars d) = _
    simp [List.append_assoc]
  have s1 : matchStates fmtIso [({}, (strftimeYmd ⟨y, mo, d, 0, 0, 0⟩).data)] =
      matchStates [.lit '-', .dm, .lit '-', .dd]
        [(⟨y, 1, 1, 0, 0, 0⟩, '-' :: (twoDigitChars mo ++ '-' :: twoDigitChars d))] := by
    rw [hdata]
    rw [show fmtIso = .dY :: [.lit '-', .dm, .lit '-', .dd] from rfl]
    rw [matchStates_cons_singleton, dY_alts y hy1 hy2]
    rfl
  have s2 : matchStates [.lit '-', .dm, .lit '-', .dd]
        [(⟨y, 1, 1, 0, 0, 0⟩, '-' :: (twoDigitChars mo ++ '-' :: twoDigitChars d))] =
      matchStates [.dm, .lit '-', .dd]
        [(⟨y, 1, 1, 0, 0, 0⟩, twoDigitChars mo ++ '-' :: twoDigitChars d)] := by
    rw [matchStates_cons_singleton, lit_dash]
    rfl
  have s3 := dm_step mo hmo1 hmo2 (⟨y, 1, 1, 0, 0, 0⟩ : Tm) [.dd] (twoDigitChars d)
  obtain ⟨junk, hj⟩ := dd_final d hd1 hd31 (⟨y, mo, 1, 0, 0, 0⟩ : Tm)
  have hv : tmValid ⟨y, mo, d, 0, 0, 0⟩ = true := by
    unfold tmValid
    simp only [Bool.and_eq_true, decide_eq_true_eq]
    exact ⟨⟨⟨by omega, by omega⟩, hday⟩, by omega⟩
  unfold strptime
  rw [s1, s2, s3, hj]
  simp [hv]

/-- Idempotence of date normalization on a canonical date string. -/
theorem normalize_date_canon (v : String) (h : isCanonDateStr v) : _normalize_date v = v := by
  obtain ⟨y, mo, d, hy1, hy2, hmo1, hmo2, hd1, hday, hveq⟩ := h
  subst hveq
  unfold _normalize_date
  rw [show fmtList = fmtIso :: fmtList.tail from rfl, List.findSome?_cons]
  rw [strptime_roundtrip y mo d hy1 hy2 hmo1 hmo2 hd1 hday]

theorem intercalate_cons_cons (s a b : List Char) (t : List (List Char)) :
    List.intercalate s (a :: b :: t) = a ++ s ++ List.intercalate s (b :: t) := by
  simp [List.intercalate, List.intersperse]

theorem mem_intercalate_nl {c : Char} :
    ∀ (lines : List (List Char)), c ∈ List.intercalate ['\n'] lines →
      c = '\n' ∨ ∃ l ∈ lines, c ∈ l := by
  intro lines
  induction lines with
  | nil => intro h; cases h
  | cons a rest ih =>
    intro h
    cases rest with
    | nil =>
      simp only [List.intercalate, List.intersperse, List.flatten] at h
      right
      exact ⟨a, List.mem_singleton_self a, by simpa using h⟩
    | cons b t =>
      rw [intercalate_cons_cons] at h
      rcases List.mem_append.mp h with h1 | h1
      · rcases List.mem_append.mp h1 with h2 | h2
        · right; exact ⟨a, List.mem_cons_self _ _, h2⟩
        · left; simpa using h2
      · rcases ih h1 with h2 | ⟨l, hl, hc⟩
        · left; exact h2
        · right; exact ⟨l, List.mem_cons_of_mem _ hl, hc⟩

theorem map_id_of_mem {α : Type} (f : α → α) :
    ∀ (l : List α), (∀ c ∈ l, f c = c) → l.map f = l := by
  intro l
  induction l with
  | nil => intro _; rfl
  | cons c rest ih =>
    intro h
    rw [List.map_cons, h c (List.mem_cons_self _ _),
      ih (fun x hx => h x (List.mem_cons_of_mem _ hx))]

theorem splitNl_no_nl : ∀ (l : List Char), (∀ c ∈ l, c ≠ '\n') → splitNl l = [l] := by
  intro l
  induction l with
  | nil => intro _; rfl
  | cons c rest ih =>
    intro h
    have hc : c ≠ '\n' := h c (List.mem_cons_self _ _)
    rw [splitNl]
    case x_1 => intro hcontra; cases hcontra; exact absurd rfl hc
    rw [ih (fun x hx => h x (List.mem_cons_of_mem _ hx))]

theorem splitNl_append_nl :
    ∀ (l rest : List Char), (∀ c ∈ l, c ≠ '\n') →
      splitNl (l ++ '\n' :: rest) = l :: splitNl rest := by
  intro l rest
  induction l with
  | nil => intro _; rfl
  | cons c l2 ih =>
    intro h
    have hc : c ≠ '\n' := h c (List.mem_cons_self _ _)
    rw [List.cons_append, splitNl]
    case x_1 => intro hcontra; cases hcontra; exact absurd rfl hc
    rw [ih (fun x hx => h x (List.mem_cons_of_mem _ hx))]

theorem splitNl_intercalate :
    ∀ (lines : List (List Char)), lines ≠ [] →
      (∀ l ∈ lines, ∀ c ∈ l, c ≠ '\n') →
      splitNl (List.intercalate ['\n'] lines) = lines := by
  intro lines
  induction lines with
  | nil => intro h; exact absurd rfl h
  | cons a rest ih =>
    intro _ h
    cases rest with
    | nil =>
      have : List.intercalate ['\n'] [a] = a := by simp [List.intercalate]
      rw [this, splitNl_no_nl a (h a (List.mem_cons_self _ _))]
    | cons b t =>
      rw [intercalate_cons_cons, List.append_assoc, List.singleton_append,
        splitNl_append_nl a _ (h a (List.mem_cons_self _ _)),
        ih (by simp) (fun l hl => h l (List.mem_cons_of_mem _ hl))]

theorem filter_eq_self_of_mem {α : Type} (p : α → Bool) :
    ∀ (l : List α), (∀ c ∈ l, p c = true) → l.filter p = l := by
  intro l
  induction l with
  | nil => intro _; rfl
  | cons c rest ih =>
    intro h
    rw [List.filter_cons, if_pos (h c (List.mem_cons_self _ _)),
      ih (fun x hx => h x (List.mem_cons_of_mem _ hx))]

/-- One equation of address normalization at a constructed string, used
to reason at the character-list level. -/
theorem normalize_address_mk (L : List Char) :
    _normalize_address (String.mk L) =
      String.mk (List.intercalate ['\n']
        (((splitNl ((L.map (fun c => if c = '|' then '\n' else c)).map
            (fun c => if c = ';' then '\n' else c))).map pyStripChars).filter
          (fun l => decide (l ≠ [])))) := rfl

/-- Idempotence of address normalization on canonical address values. -/
theorem normalize_address_canon (v : String) (h : canonAddr v) : _normalize_address v = v := by
  obtain ⟨lines, hlines, hveq⟩ := h
  have hv2 : v = String.mk (List.intercalate ['\n'] lines) := by
    cases v
    exact congrArg String.mk (by simpa using hveq)
  rw [hv2, normalize_address_mk]
  have hnosep : ∀ c ∈ List.intercalate ['\n'] lines, c ≠ '|' ∧ c ≠ ';' := by
    intro c hc
    rcases mem_intercalate_nl lines hc with h1 | ⟨l, hl, hcl⟩
    · subst h1
      exact ⟨by decide, by decide⟩
    · exact ⟨((hlines l hl).2.2 c hcl).2.1, ((hlines l hl).2.2 c hcl).2.2⟩
  have hrep : ((List.intercalate ['\n'] lines).map (fun c => if c = '|' then '\n' else c)).map
      (fun c => if c = ';' then '\n' else c) = List.intercalate ['\n'] lines := by
    rw [map_id_of_mem _ _ (fun c hc => if_neg (hnosep c hc).1)]
    exact map_id_of_mem _ _ (fun c hc => if_neg (hnosep c hc).2)
  rw [hrep]
  cases lines with
  | nil => rfl
  | cons a rest =>
    rw [splitNl_intercalate (a :: rest) (by simp)
      (fun l hl c hc => ((hlines l hl).2.2 c hc).1)]
    rw [map_id_of_mem _ _ (fun l hl => (hlines l hl).2.1)]
    rw [filter_eq_self_of_mem _ _ (fun l hl => by
      simpa using (hlines l hl).1)]

theorem numTokenShape_decomp (t : List Char) (h : numTokenShape t = true) :
    ∃ d ds, (∀ c ∈ d :: ds, c.isDigit = true) ∧
      (t = d :: ds ∨
        ∃ ds2, (∀ c ∈ ds2, c.isDigit = true) ∧ t = (d :: ds) ++ '.' :: ds2) := by
  have hall : ∀ c ∈ t.takeWhile Char.isDigit, c.isDigit = true :=
    fun c hc => List.mem_takeWhile_imp hc
  have hsplit : t.takeWhile Char.isDigit ++ t.dropWhile Char.isDigit = t :=
    List.takeWhile_append_dropWhile Char.isDigit t
  unfold numTokenShape spanDigits at h
  rcases hT : t.takeWhile Char.isDigit with _ | ⟨d, ds⟩
  · rw [hT] at h
    simp at h
  · rw [hT] at hall hsplit
    refine ⟨d, ds, hall, ?_⟩
    rcases hD : t.dropWhile Char.isDigit with _ | ⟨c2, rest2⟩
    · rw [hD, List.append_nil] at hsplit
      left
      exact hsplit.symm
    · rw [hD] at hsplit
      rw [hT, hD] at h
      by_cases hc2 : c2 = '.'
      · subst hc2
        right
        refine ⟨rest2, ?_, hsplit.symm⟩
        intro c hc
        have hb : rest2.all Char.isDigit = true := by
          split at h
          · rename_i heq
            exact absurd heq (by simp)
          · rename_i heq
            rw [Prod.mk.injEq] at heq
            exact absurd heq.2 (by simp)
          · rename_i heq
            rw [Prod.mk.injEq, List.cons.injEq] at heq
            rw [heq.2.2]
            exact h
          · simp at h
        exact List.all_eq_true.mp hb c hc
      · exfalso
        split at h
        · rename_i heq
          exact absurd heq (by simp)
        · rename_i heq
          rw [Prod.mk.injEq] at heq
          exact absurd heq.2 (by simp)
        · rename_i heq
          rw [Prod.mk.injEq, List.cons.injEq] at heq
          exact hc2 heq.2.1
        · simp at h

theorem matchNumToken_digits (d : Char) (ds : List Char)
    (h : ∀ c ∈ d :: ds, c.isDigit = true) : matchNumToken (d :: ds) = some (d :: ds) := by
  unfold matchNumToken spanDigits
  rw [takeWhile_eq_self_of_all _ _ h, dropWhile_eq_nil_of_all _ _ h]

theorem matchNumToken_dotted (d : Char) (ds ds2 : List Char)
    (h1 : ∀ c ∈ d :: ds, c.isDigit = true) (h2 : ∀ c ∈ ds2, c.isDigit = true) :
    matchNumToken ((d :: ds) ++ '.' :: ds2) = some ((d :: ds) ++ '.' :: ds2) := by
  unfold matchNumToken spanDigits
  rw [takeWhile_append_of_all _ _ _ h1, dropWhile_append_of_all _ _ _ h1]
  rw [List.takeWhile_cons, List.dropWhile_cons]
  simp only [show ('.' : Char).isDigit = false from rfl, Bool.false_eq_true, if_false,
    List.append_nil]
  rw [takeWhile_eq_self_of_all _ _ h2]

/-- Matching the weight regex against a complete token returns the
token itself. -/
theorem matchNumToken_of_shape (t : List Char) (h : numTokenShape t = true) :
    matchNumToken t = some t := by
  obtain ⟨d, ds, hdig, hcase⟩ := numTokenShape_decomp t h
  rcases hcase with h1 | ⟨ds2, hds2, h1⟩
  · rw [h1]
    exact matchNumToken_digits d ds hdig
  · rw [h1]
    exact matchNumToken_dotted d ds ds2 hdig hds2

/-- Searching a complete token finds the whole token. -/
theorem searchNumToken_of_shape (t : List Char) (h : numTokenShape t = true) :
    searchNumToken t = some t := by
  have hm := matchNumToken_of_shape t h
  cases t with
  | nil =>
    exfalso
    unfold numTokenShape spanDigits at h
    simp at h
  | cons c cs =>
    rw [searchNumToken, hm]

theorem pyInsert_append {α : Type} (k : String) (v : α) :
    ∀ (acc : List (String × α)), (∀ kv ∈ acc, kv.1 ≠ k) →
      pyInsert acc k v = acc ++ [(k, v)] := by
  intro acc
  induction acc with
  | nil => intro _; rfl
  | cons kv rest ih =>
    intro h
    rw [pyInsert, if_neg (h kv (List.mem_cons_self _ _)), List.cons_append,
      ih (fun x hx => h x (List.mem_cons_of_mem _ hx))]

theorem pyDict_nodup_aux {α : Type} :
    ∀ (l acc : List (String × α)), (l.map Prod.fst).Nodup →
      (∀ kv ∈ l, ∀ kv2 ∈ acc, kv2.1 ≠ kv.1) →
      l.foldl (fun a kv => pyInsert a kv.1 kv.2) acc = acc ++ l := by
  intro l
  induction l with
  | nil => intro acc _ _; simp
  | cons kv rest ih =>
    intro acc hnd hdisj
    rw [List.map_cons, List.nodup_cons] at hnd
    rw [List.foldl_cons,
      pyInsert_append kv.1 kv.2 acc (fun x hx => hdisj kv (List.mem_cons_self _ _) x hx)]
    rw [ih (acc ++ [(kv.1, kv.2)]) hnd.2]
    · simp
    · intro x hx y hy
      rcases List.mem_append.mp hy with hy1 | hy1
      · exact hdisj x (List.mem_cons_of_mem _ hx) y hy1
      · rw [List.mem_singleton] at hy1
        rw [hy1]
        intro he
        exact hnd.1 (he ▸ List.mem_map_of_mem Prod.fst hx)

theorem pyDict_nodup {α : Type} (l : List (String × α))
    (h : (l.map Prod.fst).Nodup) : pyDict l = l := by
  rw [pyDict, pyDict_nodup_aux l [] h (fun kv _ kv2 h2 => (List.not_mem_nil kv2 h2).elim)]
  rfl

theorem flattenEntries_strs :
    ∀ (rec : List (String × String)),
      flattenEntries (rec.map (fun kv => (kv.1, JsonValue.str kv.2))) "" =
        rec.map (fun kv => (kv.1, JsonValue.str kv.2)) := by
  intro rec
  induction rec with
  | nil => rfl
  | cons kv rest ih =>
    rw [List.map_cons, flattenEntries]
    case x_2 => intro es h; cases h
    case x_3 => intro first tail h; cases h
    rw [ih]
    rfl

theorem flatten_str_record (rec : List (String × String))
    (h : (rec.map Prod.fst).Nodup) :
    _flatten_json (.obj (rec.map (fun kv => (kv.1, JsonValue.str kv.2)))) "" =
      rec.map (fun kv => (kv.1, JsonValue.str kv.2)) := by
  rw [_flatten_json, flattenEntries_strs]
  apply pyDict_nodup
  rw [List.map_map]
  exact h

theorem alistLookup_of_mem_nodup {α : Type} :
    ∀ (l : List (String × α)), (l.map Prod.fst).Nodup →
      ∀ kv ∈ l, alistLookup l kv.1 = some kv.2 := by
  intro l
  induction l with
  | nil => intro _ kv hkv; cases hkv
  | cons x rest ih =>
    intro hnd kv hkv
    rw [List.map_cons, List.nodup_cons] at hnd
    rcases List.mem_cons.mp hkv with h1 | h1
    · rw [h1, alistLookup, if_pos rfl]
    · rw [alistLookup]
      have hne : x.1 ≠ kv.1 := by
        intro he
        exact hnd.1 (he ▸ List.mem_map_of_mem Prod.fst h1)
      rw [if_neg hne]
      exact ih hnd.2 kv h1

theorem alistLookup_map_str (rec : List (String × String)) (f : String) :
    alistLookup (rec.map (fun kv => (kv.1, JsonValue.str kv.2))) f =
      (alistLookup rec f).map JsonValue.str := by
  induction rec with
  | nil => rfl
  | cons kv rest ih =>
    rw [List.map_cons, alistLookup, alistLookup]
    by_cases h : kv.1 = f
    · rw [if_pos h, if_pos h]
      rfl
    · rw [if_neg h, if_neg h]
      exact ih

theorem find_head_hit (data : List (String × JsonValue)) (k : String) (ks : List String)
    (v : JsonValue) (h : alistLookup data k = some v) :
    _find_value_by_keys data (k :: ks) = some v := by
  unfold _find_value_by_keys
  rw [List.findSome?_cons, h]

/-- The string constructor undoes the data projection. -/
theorem string_mk_data (v : String) : String.mk v.data = v := rfl

set_option maxHeartbeats 2000000 in
/-- Normalizing a canonical value of its own canonical field is the
identity. -/
theorem normalize_canon (f v : String)
    (hcf : f = "shipper_name" ∨ f = "shipper_address" ∨ f = "recipient_name" ∨
      f = "recipient_address" ∨ f = "package_weight" ∨ f = "package_dimensions" ∨
      f = "tracking_number" ∨ f = "shipping_date" ∨ f = "special_instructions")
    (h : canonVal f v) :
    _normalize_value f (.str v) = v := by
  obtain ⟨hstrip, hw, hd, ha⟩ := h
  rcases hcf with hcf | hcf | hcf | hcf | hcf | hcf | hcf | hcf | hcf <;> subst hcf
  · show pyStripStr v = v
    exact hstrip
  · show _normalize_address (pyStripStr v) = v
    rw [hstrip]
    exact normalize_address_canon v (ha (Or.inl rfl))
  · show pyStripStr v = v
    exact hstrip
  · show _normalize_address (pyStripStr v) = v
    rw [hstrip]
    exact normalize_address_canon v (ha (Or.inr rfl))
  · show (match searchNumToken (pyStripStr v).data with
      | some t => String.mk t
      | none => pyStripStr v) = v
    rw [hstrip, searchNumToken_of_shape v.data (hw rfl)]
  · show pyStripStr v = v
    exact hstrip
  · show pyStripStr v = v
    exact hstrip
  · show _normalize_date (pyStripStr v) = v
    rw [hstrip]
    exact normalize_date_canon v (hd rfl)
  · show pyStripStr v = v
    exact hstrip

set_option maxHeartbeats 2000000 in
/-- Claim C8: parsing a flat record whose keys are exactly the nine
canonical field names and whose values are already canonical returns
every value byte-identical: resolution hits each field through the
exact pass (the first alias of each row is the field name itself) and
every normalization rule is the identity on the canonical form of its
field. -/
theorem canonical_record_idempotent_c8 :
    ∀ (record : List (String × String)),
      (record.map Prod.fst).Perm canonicalFields →
      (∀ kv ∈ record, canonVal kv.1 kv.2) →
      ∀ kv ∈ record,
        alistLookup
          (parse_json_data (.obj (record.map (fun kv => (kv.1, JsonValue.str kv.2))))).fields
          kv.1 = some kv.2 := by
  intro record hperm hcanon kv hkv
  obtain ⟨kf, kvv⟩ := kv
  have hnodup : (record.map Prod.fst).Nodup := hperm.nodup_iff.mpr (by decide)
  have hflat := flatten_str_record record hnodup
  have hfield : ∀ f, f ∈ canonicalFields →
      ∃ v, alistLookup record f = some v ∧ canonVal f v := by
    intro f hf
    have hmem : f ∈ record.map Prod.fst := hperm.mem_iff.mpr hf
    obtain ⟨kv2, hkv2, hfe⟩ := List.mem_map.mp hmem
    subst hfe
    exact ⟨kv2.2, alistLookup_of_mem_nodup record hnodup kv2 hkv2, hcanon kv2 hkv2⟩
  obtain ⟨v1, hv1, hc1⟩ := hfield "shipper_name" (by decide)
  obtain ⟨v2, hv2, hc2⟩ := hfield "shipper_address" (by decide)
  obtain ⟨v3, hv3, hc3⟩ := hfield "recipient_name" (by decide)
  obtain ⟨v4, hv4, hc4⟩ := hfield "recipient_address" (by decide)
  obtain ⟨v5, hv5, hc5⟩ := hfield "package_weight" (by decide)
  obtain ⟨v6, hv6, hc6⟩ := hfield "package_dimensions" (by decide)
  obtain ⟨v7, hv7, hc7⟩ := hfield "tracking_number" (by decide)
  obtain ⟨v8, hv8, hc8⟩ := hfield "shipping_date" (by decide)
  obtain ⟨v9, hv9, hc9⟩ := hfield "special_instructions" (by decide)
  have hl1 : alistLookup (record.map (fun kv => (kv.1, JsonValue.str kv.2))) "shipper_name"
      = some (.str v1) := by rw [alistLookup_map_str, hv1]; rfl
  have hl2 : alistLookup (record.map (fun kv => (kv.1, JsonValue.str kv.2))) "shipper_address"
      = some (.str v2) := by rw [alistLookup_map_str, hv2]; rfl
  have hl3 : alistLookup (record.map (fun kv => (kv.1, JsonValue.str kv.2))) "recipient_name"
      = some (.str v3) := by rw [alistLookup_map_str, hv3]; rfl
  have hl4 : alistLookup (record.map (fun kv => (kv.1, JsonValue.str kv.2))) "recipient_address"
      = some (.str v4) := by rw [alistLookup_map_str, hv4]; rfl
  have hl5 : alistLookup (record.map (fun kv => (kv.1, JsonValue.str kv.2))) "package_weight"
      = some (.str v5) := by rw [alistLookup_map_str, hv5]; rfl
  have hl6 : alistLookup (record.map (fun kv => (kv.1, JsonValue.str kv.2))) "package_dimensions"
      = some (.str v6) := by rw [alistLookup_map_str, hv6]; rfl
  have hl7 : alistLookup (record.map (fun kv => (kv.1, JsonValue.str kv.2))) "tracking_number"
      = some (.str v7) := by rw [alistLookup_map_str, hv7]; rfl
  have hl8 : alistLookup (record.map (fun kv => (kv.1, JsonValue.str kv.2))) "shipping_date"
      = some (.str v8) := by rw [alistLookup_map_str, hv8]; rfl
  have hl9 : alistLookup (record.map (fun kv => (kv.1, JsonValue.str kv.2)))
      "special_instructions" = some (.str v9) := by rw [alistLookup_map_str, hv9]; rfl
  have hf1 := find_head_hit _ _ ["shipper", "sender_name", "sender", "from_name", "from",
    "origin_name", "origin_company", "shipping_company", "company_name"] _ hl1
  have hf2 := find_head_hit _ _ ["shipper_addr", "sender_address", "sender_addr",
    "from_address", "from_addr", "origin_address", "origin_addr", "pickup_address"] _ hl2
  have hf3 := find_head_hit _ _ ["recipient", "receiver_name", "receiver", "to_name", "to",
    "destination_name", "dest_name", "customer_name", "consignee_name", "consignee"] _ hl3
  have hf4 := find_head_hit _ _ ["recipient_addr", "receiver_address", "receiver_addr",
    "to_address", "to_addr", "destination_address", "dest_address", "delivery_address"] _ hl4
  have hf5 := find_head_hit _ _ ["weight", "pkg_weight", "total_weight", "gross_weight",
    "shipment_weight", "parcel_weight", "item_weight"] _ hl5
  have hf6 := find_head_hit _ _ ["dimensions", "pkg_dimensions", "size", "measurements",
    "length_width_height", "lwh", "box_size"] _ hl6
  have hf7 := find_head_hit _ _ ["tracking_no", "tracking_id", "track_number",
    "reference_number", "reference_no", "shipment_id", "order_number", "order_id",
    "awb_number"] _ hl7
  have hf8 := find_head_hit _ _ ["ship_date", "pickup_date", "dispatch_date", "send_date",
    "departure_date", "collection_date", "scheduled_date"] _ hl8
  have hf9 := find_head_hit _ _ ["instructions", "notes", "comments", "remarks",
    "delivery_instructions", "handling_instructions", "special_notes", "description"] _ hl9
  have hfields : (parse_json_data
        (.obj (record.map (fun kv => (kv.1, JsonValue.str kv.2))))).fields =
      [("shipper_name", _normalize_value "shipper_name" (.str v1)),
       ("shipper_address", _normalize_value "shipper_address" (.str v2)),
       ("recipient_name", _normalize_value "recipient_name" (.str v3)),
       ("recipient_address", _normalize_value "recipient_address" (.str v4)),
       ("package_weight", _normalize_value "package_weight" (.str v5)),
       ("package_dimensions", _normalize_value "package_dimensions" (.str v6)),
       ("tracking_number", _normalize_value "tracking_number" (.str v7)),
       ("shipping_date", _normalize_value "shipping_date" (.str v8)),
       ("special_instructions", _normalize_value "special_instructions" (.str v9))] := by
    rw [parse_fields_eq, hflat]
    simp only [field_mappings, List.flatMap_cons, List.flatMap_nil, parseStep,
      hf1, hf2, hf3, hf4, hf5, hf6, hf7, hf8, hf9, List.append_nil,
      List.singleton_append]
  have hkvmem : kf ∈ canonicalFields := by
    have : kf ∈ record.map Prod.fst := List.mem_map_of_mem Prod.fst hkv
    exact hperm.mem_iff.mp this
  have hkvlook : alistLookup record kf = some kvv :=
    alistLookup_of_mem_nodup record hnodup (kf, kvv) hkv
  have hn1 : _normalize_value "shipper_name" (.str v1) = v1 :=
    normalize_canon _ _ (Or.inl rfl) hc1
  have hn2 : _normalize_value "shipper_address" (.str v2) = v2 :=
    normalize_canon _ _ (Or.inr (Or.inl rfl)) hc2
  have hn3 : _normalize_value "recipient_name" (.str v3) = v3 :=
    normalize_canon _ _ (Or.inr (Or.inr (Or.inl rfl))) hc3
  have hn4 : _normalize_value "recipient_address" (.str v4) = v4 :=
    normalize_canon _ _ (Or.inr (Or.inr (Or.inr (Or.inl rfl)))) hc4
  have hn5 : _normalize_value "package_weight" (.str v5) = v5 :=
    normalize_canon _ _ (Or.inr (Or.inr (Or.inr (Or.inr (Or.inl rfl))))) hc5
  have hn6 : _normalize_value "package_dimensions" (.str v6) = v6 :=
    normalize_canon _ _ (Or.inr (Or.inr (Or.inr (Or.inr (Or.inr (Or.inl rfl)))))) hc6
  have hn7 : _normalize_value "tracking_number" (.str v7) = v7 :=
    normalize_canon _ _ (Or.inr (Or.inr (Or.inr (Or.inr (Or.inr (Or.inr (Or.inl rfl))))))) hc7
  have hn8 : _normalize_value "shipping_date" (.str v8) = v8 :=
    normalize_canon _ _ (Or.inr (Or.inr (Or.inr (Or.inr (Or.inr (Or.inr (Or.inr (Or.inl rfl)))))))) hc8
  have hn9 : _normalize_value "special_instructions" (.str v9) = v9 :=
    normalize_canon _ _ (Or.inr (Or.inr (Or.inr (Or.inr (Or.inr (Or.inr (Or.inr (Or.inr rfl)))))))) hc9
  rw [hfields, hn1, hn2, hn3, hn4, hn5, hn6, hn7, hn8, hn9]
  have hcf : kf = "shipper_name" ∨ kf = "shipper_address" ∨ kf = "recipient_name" ∨
      kf = "recipient_address" ∨ kf = "package_weight" ∨ kf = "package_dimensions" ∨
      kf = "tracking_number" ∨ kf = "shipping_date" ∨ kf = "special_instructions" := by
    simpa [canonicalFields, field_mappings] using hkvmem
  have hfnodup : (([("shipper_name", v1), ("shipper_address", v2), ("recipient_name", v3),
      ("recipient_address", v4), ("package_weight", v5), ("package_dimensions", v6),
      ("tracking_number", v7), ("shipping_date", v8),
      ("special_instructions", v9)] : List (String × String)).map Prod.fst).Nodup := by
    simp [List.nodup_cons]
  clear hf1 hf2 hf3 hf4 hf5 hf6 hf7 hf8 hf9 hl1 hl2 hl3 hl4 hl5 hl6 hl7 hl8 hl9
  clear hn1 hn2 hn3 hn4 hn5 hn6 hn7 hn8 hn9 hfields hflat hfield hcanon hperm hnodup
  clear hkvmem hkv
  clear hc1 hc2 hc3 hc4 hc5 hc6 hc7 hc8 hc9
  rcases hcf with hcf | hcf | hcf | hcf | hcf | hcf | hcf | hcf | hcf <;> subst hcf
  · rw [hv1] at hkvlook
    injection hkvlook with hvv
    rw [← hvv]
    exact alistLookup_of_mem_nodup _ hfnodup _ (by simp)
  · rw [hv2] at hkvlook
    injection hkvlook with hvv
    rw [← hvv]
    exact alistLookup_of_mem_nodup _ hfnodup _ (by simp)
  · rw [hv3] at hkvlook
    injection hkvlook with hvv
    rw [← hvv]
    exact alistLookup_of_mem_nodup _ hfnodup _ (by simp)
  · rw [hv4] at hkvlook
    injection hkvlook with hvv
    rw [← hvv]
    exact alistLookup_of_mem_nodup _ hfnodup _ (by simp)
  · rw [hv5] at hkvlook
    injection hkvlook with hvv
    rw [← hvv]
    exact alistLookup_of_mem_nodup _ hfnodup _ (by simp)
  · rw [hv6] at hkvlook
    injection hkvlook with hvv
    rw [← hvv]
    exact alistLookup_of_mem_nodup _ hfnodup _ (by simp)
  · rw [hv7] at hkvlook
    injection hkvlook with hvv
    rw [← hvv]
    exact alistLookup_of_mem_nodup _ hfnodup _ (by simp)
  · rw [hv8] at hkvlook
    injection hkvlook with hvv
    rw [← hvv]
    exact alistLookup_of_mem_nodup _ hfnodup _ (by simp)
  · rw [hv9] at hkvlook
    injection hkvlook with hvv
    rw [← hvv]
    exact alistLookup_of_mem_nodup _ hfnodup _ (by simp)

/-- Witness for the idempotence claim on a concrete record whose nine
values are already canonical. -/
theorem canonical_record_idempotent_c8_witness :
    alistLookup (parse_json_data (.obj
      (([("shipper_name", "Acme Corp"), ("shipper_address", "1 Main St"),
         ("recipient_name", "Bob Inc"), ("recipient_address", "2 Oak Ave"),
         ("package_weight", "45.5"), ("package_dimensions", "24x18x12"),
         ("tracking_number", "GS2024010001"), ("shipping_date", "2024-01-15"),
         ("special_instructions", "Handle with care")] : List (String × String)).map
        (fun kv => (kv.1, JsonValue.str kv.2))))).fields "shipping_date" =
      some "2024-01-15" ∧
    alistLookup (parse_json_data (.obj
      (([("shipper_name", "Acme Corp"), ("shipper_address", "1 Main St"),
         ("recipient_name", "Bob Inc"), ("recipient_address", "2 Oak Ave"),
         ("package_weight", "45.5"), ("package_dimensions", "24x18x12"),
         ("tracking_number", "GS2024010001"), ("shipping_date", "2024-01-15"),
         ("special_instructions", "Handle with care")] : List (String × String)).map
        (fun kv => (kv.1, JsonValue.str kv.2))))).fields "package_weight" =
      some "45.5" := by
  have hperm : (([("shipper_name", "Acme Corp"), ("shipper_address", "1 Main St"),
      ("recipient_name", "Bob Inc"), ("recipient_address", "2 Oak Ave"),
      ("package_weight", "45.5"), ("package_dimensions", "24x18x12"),
      ("tracking_number", "GS2024010001"), ("shipping_date", "2024-01-15"),
      ("special_instructions", "Handle with care")] : List (String × String)).map
        Prod.fst).Perm canonicalFields := by
    have h : ((([("shipper_name", "Acme Corp"), ("shipper_address", "1 Main St"),
        ("recipient_name", "Bob Inc"), ("recipient_address", "2 Oak Ave"),
        ("package_weight", "45.5"), ("package_dimensions", "24x18x12"),
        ("tracking_number", "GS2024010001"), ("shipping_date", "2024-01-15"),
        ("special_instructions", "Handle with care")] : List (String × String)).map
          Prod.fst) = canonicalFields) := by decide
    rw [h]
  have hcanon : ∀ kv ∈ ([("shipper_name", "Acme Corp"), ("shipper_address", "1 Main St"),
      ("recipient_name", "Bob Inc"), ("recipient_address", "2 Oak Ave"),
      ("package_weight", "45.5"), ("package_dimensions", "24x18x12"),
      ("tracking_number", "GS2024010001"), ("shipping_date", "2024-01-15"),
      ("special_instructions", "Handle with care")] : List (String × String)),
      canonVal kv.1 kv.2 := by
    intro kv hkv
    simp only [List.mem_cons, List.not_mem_nil, or_false] at hkv
    rcases hkv with h | h | h | h | h | h | h | h | h <;> subst h
    · exact ⟨by decide, fun h => absurd h (by decide), fun h => absurd h (by decide),
        fun h => by rcases h with h | h <;> exact absurd h (by decide)⟩
    · refine ⟨by decide, fun h => absurd h (by decide), fun h => absurd h (by decide),
        fun _ => ⟨["1 Main St".data], ?_, by decide⟩⟩
      intro l hl
      rw [List.mem_singleton] at hl
      subst hl
      exact ⟨by decide, by decide, by decide⟩
    · exact ⟨by decide, fun h => absurd h (by decide), fun h => absurd h (by decide),
        fun h => by rcases h with h | h <;> exact absurd h (by decide)⟩
    · refine ⟨by decide, fun h => absurd h (by decide), fun h => absurd h (by decide),
        fun _ => ⟨["2 Oak Ave".data], ?_, by decide⟩⟩
      intro l hl
      rw [List.mem_singleton] at hl
      subst hl
      exact ⟨by decide, by decide, by decide⟩
    · exact ⟨by decide, fun _ => by decide, fun h => absurd h (by decide),
        fun h => by rcases h with h | h <;> exact absurd h (by decide)⟩
    · exact ⟨by decide, fun h => absurd h (by decide), fun h => absurd h (by decide),
        fun h => by rcases h with h | h <;> exact absurd h (by decide)⟩
    · exact ⟨by decide, fun h => absurd h (by decide), fun h => absurd h (by decide),
        fun h => by rcases h with h | h <;> exact absurd h (by decide)⟩
    · exact ⟨by decide, fun h => absurd h (by decide),
        fun _ => ⟨2024, 1, 15, by decide, by decide, by decide, by decide, by decide,
          by decide, by decide⟩,
        fun h => by rcases h with h | h <;> exact absurd h (by decide)⟩
    · exact ⟨by decide, fun h => absurd h (by decide), fun h => absurd h (by decide),
        fun h => by rcases h with h | h <;> exact absurd h (by decide)⟩
  exact ⟨canonical_record_idempotent_c8 _ hperm hcanon ("shipping_date", "2024-01-15")
      (by simp),
    canonical_record_idempotent_c8 _ hperm hcanon ("package_weight", "45.5") (by simp)⟩

end NovaAct
